import Mathlib

/-!
Verification of `FileSyncer.py`.

A shallow embedding of the synchronization core of `src/FileSyncer.py`:
the content hash (`get_md5`), the deletion pass over the replica tree
(`os.walk(replica_folder, topdown=False)` with `os.remove` / `os.rmdir`),
the copy/skip pass over the source scan (`os.walk(source_folder)`,
`os.makedirs`, `shutil.copy2`), the run counters and per-action log lines,
and the tail call that re-schedules the run through `sched.scheduler.enter`.

The filesystem is modelled as a finite tree of named entries.  A run acts
on two such trees: the source tree is only read, the replica tree is
rewritten.  Fallible operations (removing a non-empty directory, hashing a
directory, copying into a missing parent) are modelled with an explicit
error value, and every pass returns the state it had reached when an error
struck, mirroring the fact that the Python code performs its effects
incrementally and lets exceptions propagate.
-/

namespace FileSyncer

/-- Byte content of a regular file. -/
abbrev Content := List Nat

/-- A filesystem entry: a regular file with its bytes, or a directory with
its named children in listing (`os.scandir`) order. -/
inductive Entry : Type where
  | file (content : Content)
  | dir (children : List (String × Entry))

/-- First child with the given name, mirroring a path-component lookup in a
directory listing. -/
def childGet (n : String) : List (String × Entry) → Option Entry
  | [] => none
  | (m, e) :: rest => if m = n then some e else childGet n rest

/-- Insert or overwrite the child with the given name.  An existing child
keeps its position in the listing; a new child is appended. -/
def childPut (n : String) (e : Entry) : List (String × Entry) → List (String × Entry)
  | [] => [(n, e)]
  | (m, e') :: rest => if m = n then (n, e) :: rest else (m, e') :: childPut n e rest

/-- Resolve a relative path (a list of components) in a tree. -/
def lookup : Entry → List String → Option Entry
  | e, [] => some e
  | .file _, _ :: _ => none
  | .dir cs, n :: rest =>
    match childGet n cs with
    | some e => lookup e rest
    | none => none

/-- Model of `os.path.exists` relative to a tree root: some entry of any
kind occupies the path. -/
def existsE (t : Entry) (p : List String) : Bool := (lookup t p).isSome

mutual

/-- Well-formedness of a tree: in every directory listing the names are
distinct, as they are on a real filesystem. -/
def wfb : Entry → Bool
  | .file _ => true
  | .dir cs => decide ((cs.map Prod.fst).Nodup) && wfbL cs

def wfbL : List (String × Entry) → Bool
  | [] => true
  | (_, e) :: rest => wfb e && wfbL rest

end

/-! ## Content hashing (`get_md5`, lines 9–16)

`get_md5` opens the file and streams its bytes through an MD5 accumulator.
The spec only relies on the digest as a collision-avoiding content
fingerprint ("MD5-equivalent strength is sufficient; algorithm choice is
not security-critical"), so the digest is modelled as an injective
function of the byte content; opening a directory for reading raises
`IsADirectoryError`, a missing path `FileNotFoundError`. -/

/-- Errors a run can raise; they mirror the `OSError` subclasses the
corresponding Python calls raise. -/
inductive Err : Type where
  /-- Raised by `os.rmdir` on a non-empty directory. -/
  | dirNotEmpty
  /-- opening a directory for reading (`get_md5`). -/
  | isADirectory
  /-- opening a missing file for reading. -/
  | fileNotFound
  /-- Raised when `os.makedirs` / `shutil.copy2` hit a non-directory component. -/
  | notADirectory
  /-- Raised by `os.makedirs` on an already existing path. -/
  | fileExists
deriving DecidableEq

/-- The digest of a byte string: modelled as the content itself, i.e. an
ideal collision-free fingerprint. -/
def md5_hexdigest (c : Content) : Content := c

/-- Model of `get_md5(path)` relative to a tree: hash the file's bytes;
fail when
the path names a directory (`IsADirectoryError`) or nothing at all
(`FileNotFoundError`). -/
def get_md5 (t : Entry) (p : List String) : Except Err Content :=
  match lookup t p with
  | some (.file c) => .ok (md5_hexdigest c)
  | some (.dir _) => .error .isADirectory
  | none => .error .fileNotFound

/-! ## The source scan (lines 26–30)

`os.walk(source_folder)` (top-down) yields each directory's regular files
before descending into its subdirectories, both in listing order; the scan
collects the files of every triple, so a directory's own files precede
those of its subtrees. -/

mutual

/-- Relative paths of the regular files of the walk rooted at `e`, with
`p` the path of `e` itself: this directory's files first, then each
subdirectory's files recursively, in listing order. -/
def walkFiles (p : List String) : Entry → List (List String)
  | .file _ => []
  | .dir cs => walkFilesHere p cs ++ walkFilesSub p cs

/-- The file entries of one directory listing. -/
def walkFilesHere (p : List String) : List (String × Entry) → List (List String)
  | [] => []
  | (n, .file _) :: rest => (p ++ [n]) :: walkFilesHere p rest
  | (_, .dir _) :: rest => walkFilesHere p rest

/-- The files of the subdirectories of one directory listing. -/
def walkFilesSub (p : List String) : List (String × Entry) → List (List String)
  | [] => []
  | (_, .file _) :: rest => walkFilesSub p rest
  | (n, .dir cs) :: rest => walkFiles (p ++ [n]) (.dir cs) ++ walkFilesSub p rest

end

/-- The source scan: `source_files` of lines 26–30, as paths relative to
the source root. -/
def source_files (src : Entry) : List (List String) := walkFiles [] src

/-! ## Log lines

One constructor per message the program writes (lines 39–42, 48–50,
67–71, 75–78, 80–86); timestamps are wall-clock and are abstracted away.
There is no constructor for a failure message: the code has none. -/

/-- A line appended to the log file (and mirrored to the console). -/
inductive LogLine : Type where
  /-- The line `"<path> removed from replica folder"` (written both for
  files and for directories). -/
  | removedLine (p : List String)
  /-- The line `"<path> already exists in replica folder and is identical"`. -/
  | identicalLine (p : List String)
  /-- The line `"<path> copied to replica folder"`. -/
  | copiedLine (p : List String)
  /-- The summary line `"Files copied - <n>"`. -/
  | filesCopied (n : Nat)
  /-- The summary line `"Files removed - <n>"`. -/
  | filesRemoved (n : Nat)
  /-- The summary line `"Files unaltered - <n>"`. -/
  | filesUnaltered (n : Nat)
deriving DecidableEq

/-! ## The deletion pass (lines 32–50)

`os.walk(replica_folder, topdown=False)` yields a directory's triple
after the triples of all its subdirectories (post-order).  For each triple
the files loop removes every file whose corresponding source path does not
exist (`os.path.exists`), counting and logging each removal; then the dirs
loop removes every subdirectory whose corresponding source path does not
exist with `os.rmdir`, logging but not counting.  `os.rmdir` fails on a
non-empty directory.  An exception aborts the pass, leaving the removals
already performed in place. -/

/-- The files loop of one triple: drop the stale files of one listing,
counting and logging each removal in listing order. -/
def delFiles (src : Entry) (p : List String) :
    List (String × Entry) → List (String × Entry) × Nat × List LogLine
  | [] => ([], 0, [])
  | (n, .file c) :: rest =>
    let (rest', k, lg) := delFiles src p rest
    if existsE src (p ++ [n]) then ((n, .file c) :: rest', k, lg)
    else (rest', k + 1, .removedLine (p ++ [n]) :: lg)
  | (n, .dir d) :: rest =>
    let (rest', k, lg) := delFiles src p rest
    ((n, .dir d) :: rest', k, lg)

/-- The dirs loop of one triple: `os.rmdir` every stale subdirectory of
one listing, logging each removal; a non-empty stale subdirectory makes
`os.rmdir` raise, aborting the loop. -/
def delDirs (src : Entry) (p : List String) :
    List (String × Entry) → List (String × Entry) × List LogLine × Option Err
  | [] => ([], [], none)
  | (n, .file c) :: rest =>
    let (rest', lg, er) := delDirs src p rest
    ((n, .file c) :: rest', lg, er)
  | (n, .dir d) :: rest =>
    if existsE src (p ++ [n]) then
      let (rest', lg, er) := delDirs src p rest
      ((n, .dir d) :: rest', lg, er)
    else if d.isEmpty then
      let (rest', lg, er) := delDirs src p rest
      (rest', .removedLine (p ++ [n]) :: lg, er)
    else ((n, .dir d) :: rest, [], some .dirNotEmpty)

mutual

/-- Process the whole walk below the entry at path `p`, including that
directory's own triple: first the subdirectories' triples (the post-order
recursion of `delWalkL` over the listing), then this directory's own
triple (files loop, then dirs loop).  An error aborts the walk, keeping
the removals already performed. -/
def delWalk (src : Entry) (p : List String) :
    Entry → Entry × Nat × List LogLine × Option Err
  | .file c => (.file c, 0, [], none)
  | .dir cs =>
    match delWalkL src p cs with
    | (cs1, k, lg, some er) => (.dir cs1, k, lg, some er)
    | (cs1, k, lg, none) =>
      let (cs2, k2, lg2) := delFiles src p cs1
      let (cs3, lg3, er) := delDirs src p cs2
      (.dir cs3, k + k2, lg ++ lg2 ++ lg3, er)

/-- Recurse into the children of one listing in listing order; regular
files are untouched here (they are handled by their parent's own triple),
each subdirectory's subtree is processed by `delWalk`. -/
def delWalkL (src : Entry) (p : List String) :
    List (String × Entry) → List (String × Entry) × Nat × List LogLine × Option Err
  | [] => ([], 0, [], none)
  | (n, e) :: rest =>
    match delWalk src (p ++ [n]) e with
    | (e', k, lg, some er) => ((n, e') :: rest, k, lg, some er)
    | (e', k, lg, none) =>
      let (rest', k2, lg2, er) := delWalkL src p rest
      ((n, e') :: rest', k + k2, lg ++ lg2, er)

end

/-- The whole deletion pass, lines 32–50: walk the replica tree bottom-up,
removing every entry whose corresponding source path does not exist.  The
replica root itself is never a candidate (the walk never lists its own
root); walking a non-directory yields nothing. -/
def deletion_pass (src replica : Entry) : Entry × Nat × List LogLine × Option Err :=
  delWalk src [] replica

/-! ## Replica mutation primitives used by the copy pass -/

/-- Write a regular file at a (non-empty) relative path whose parent chain
consists of existing directories: `none` when a component is missing or is
not a directory.  The written file keeps an existing entry's listing
position, a new file is appended to its parent's listing. -/
def setFile : Entry → List String → Content → Option Entry
  | _, [], _ => none
  | .file _, _ :: _, _ => none
  | .dir cs, [n], c => some (.dir (childPut n (.file c) cs))
  | .dir cs, n :: n2 :: rest, c =>
    match childGet n cs with
    | some e =>
      match setFile e (n2 :: rest) c with
      | some e' => some (.dir (childPut n e' cs))
      | none => none
    | none => none

/-- The chain of nested fresh directories `os.makedirs` builds below its
first missing component. -/
def mkChain : List String → Entry
  | [] => .dir []
  | n :: rest => .dir [(n, mkChain rest)]

/-- Model of `os.makedirs(path)` (default `exist_ok=False`): create every
missing
directory along the path; raise `FileExistsError` when the full path
already exists and `NotADirectoryError`-style failure when a component is
occupied by a regular file. -/
def makedirs : Entry → List String → Except Err Entry
  | .file _, _ => .error .notADirectory
  | .dir _, [] => .error .fileExists
  | .dir cs, n :: rest =>
    match childGet n cs with
    | none => .ok (.dir (childPut n (mkChain rest) cs))
    | some e =>
      if rest.isEmpty then .error .fileExists
      else
        match makedirs e rest with
        | .ok e' => .ok (.dir (childPut n e' cs))
        | .error er => .error er

/-- Model of `shutil.copy2(source_file, replica_file)`: read the bytes of
the
source path and overwrite the file at the destination path with them;
when the destination is an existing directory, copy into it under the
source file's basename; fail when the source path is not a regular file
or the destination's parent is missing or not a directory. -/
def copy2 (src : Entry) (sp : List String) (t : Entry) (p : List String) : Except Err Entry :=
  match lookup src sp with
  | some (.file c) =>
    match lookup t p with
    | some (.dir _) =>
      match sp.getLast? with
      | some n =>
        match setFile t (p ++ [n]) c with
        | some t' => .ok t'
        | none => .error .notADirectory
      | none => .error .notADirectory
    | _ =>
      match setFile t p c with
      | some t' => .ok t'
      | none => .error .notADirectory
  | some (.dir _) => .error .isADirectory
  | none => .error .fileNotFound

/-! ## The copy/skip pass (lines 52–78) and the whole run -/

/-- The mutable state of one run: the replica tree plus the three counters
of lines 22–24 and the log lines written so far. -/
structure RunState : Type where
  replica : Entry
  copied : Nat
  removed : Nat
  identical : Nat
  log : List LogLine

/-- One iteration of the loop of lines 53–78 for the source-scan path `p`:
ensure the destination's parent directory structure exists (lines 60–63),
then either count the file as identical (lines 66–71) or copy it
(lines 72–78).  On an error the state reached so far is kept and the error
is reported. -/
def copyStep (src : Entry) (st : RunState) (p : List String) : RunState × Option Err :=
  let d := p.dropLast
  match (if existsE st.replica d then .ok st.replica else makedirs st.replica d :
      Except Err Entry) with
  | .error er => (st, some er)
  | .ok rep1 =>
    let st1 := { st with replica := rep1 }
    let doCopy : RunState × Option Err :=
      match copy2 src p rep1 p with
      | .ok rep2 =>
        ({ st1 with replica := rep2, copied := st1.copied + 1,
                    log := st1.log ++ [.copiedLine p] }, none)
      | .error er => (st1, some er)
    if existsE rep1 p then
      match get_md5 src p with
      | .error er => (st1, some er)
      | .ok h1 =>
        match get_md5 rep1 p with
        | .error er => (st1, some er)
        | .ok h2 =>
          if h1 = h2 then
            ({ st1 with identical := st1.identical + 1,
                        log := st1.log ++ [.identicalLine p] }, none)
          else doCopy
    else doCopy

/-- The loop of lines 53–78 over the whole source scan; an error aborts
the loop with the state reached so far. -/
def copyPass (src : Entry) : List (List String) → RunState → RunState × Option Err
  | [], st => (st, none)
  | p :: ps, st =>
    match copyStep src st p with
    | (st', none) => copyPass src ps st'
    | (st', some er) => (st', some er)

/-- One run of `sync_folders` (lines 19–90, without the re-scheduling
tail): deletion pass, then copy/skip pass over the source scan, then the
three summary lines (lines 80–86).  An uncaught error aborts the run where
it struck — the code has no exception handler — and the summary lines are
then never written. -/
def sync_folders (src replica : Entry) : RunState × Option Err :=
  match deletion_pass src replica with
  | (rep1, k, lg, some er) =>
    ({ replica := rep1, copied := 0, removed := k, identical := 0, log := lg }, some er)
  | (rep1, k, lg, none) =>
    match copyPass src (source_files src)
        { replica := rep1, copied := 0, removed := k, identical := 0, log := lg } with
    | (st, some er) => (st, some er)
    | (st, none) =>
      ({ st with log := st.log ++
          [.filesCopied st.copied, .filesRemoved st.removed,
           .filesUnaltered st.identical] }, none)

/-- The bytes of the regular file at a path, when one is there. -/
def readFile (t : Entry) (p : List String) : Option Content :=
  match lookup t p with
  | some (.file c) => some c
  | _ => none

/-! ## The re-scheduling tail (lines 88–90) and `sched` (lines 149–161)

`scheduler.enter(delay, priority, action, args)` of Python's `sched`
module is by definition `enterabs(timefunc() + delay, ...)`: the event
fires `delay` seconds after the moment `enter` is called.  `sync_folders`
calls `enter(backup_interval, 1, sync_folders, ...)` as its very last
statement, i.e. at completion of the run, after every action and the
summary lines. -/

/-- A pending event of the `sched` queue: its absolute firing time and
priority. -/
structure SchedEvent : Type where
  time : Nat
  priority : Nat
deriving DecidableEq

/-- Model of `scheduler.enter(delay, priority, …)` called at wall-clock
time
`now`: schedules the event at absolute time `now + delay`. -/
def sched_enter (now delay priority : Nat) : SchedEvent :=
  { time := now + delay, priority := priority }

/-- The event lines 88–90 put on the queue: `enter` is executed at the
moment the run completes, with delay `backup_interval` and priority 1. -/
def sync_folders_reschedule (completionTime backup_interval : Nat) : SchedEvent :=
  sched_enter completionTime backup_interval 1

/-! ## Mutation-target audit (claim about the source tree staying intact)

Every filesystem path the run mutates is computed by the code in one of
two ways: the deletion pass joins the walk root `replica_folder` with the
path the walk yielded (lines 35, 44), and the copy pass joins
`replica_folder` with `os.path.relpath(source_file, source_folder)`
(lines 55–58), creating missing parents of that target (lines 61–63).
Absolute paths are modelled as component lists; `os.path.join` appends,
and `os.path.relpath(path, base)` for a path lying under `base` strips
the base prefix. -/

/-- Model of `os.path.join` on component lists. -/
def joinPath (base p : List String) : List String := base ++ p

/-- Model of `os.path.relpath(path, base)` for a path under `base`: drop
the base
prefix (the only way the code uses it). -/
def relpath (path base : List String) : List String := path.drop base.length

mutual

/-- Every (relative) path the replica walk can yield, i.e. every entry of
the tree, in walk listing order. -/
def allPaths (p : List String) : Entry → List (List String)
  | .file _ => []
  | .dir cs => allPathsL p cs

/-- Paths of the entries of one listing and of everything below them. -/
def allPathsL (p : List String) : List (String × Entry) → List (List String)
  | [] => []
  | (n, e) :: rest => (p ++ [n]) :: (allPaths (p ++ [n]) e ++ allPathsL p rest)

end

/-- The absolute path of every create/write/delete target of one run:
the deletion pass's `os.remove`/`os.rmdir` targets (every replica entry is
a candidate), and, for every source scan entry, the directories
`os.makedirs` may create (every prefix of the target's dirname) and the
`shutil.copy2` destination, each computed the way the code computes it. -/
def mutationTargets (sourceRoot replicaRoot : List String) (src replica : Entry) :
    List (List String) :=
  (allPaths [] replica).map (joinPath replicaRoot) ++
    (source_files src).flatMap (fun p =>
      let target := joinPath replicaRoot (relpath (joinPath sourceRoot p) sourceRoot)
      (relpath target replicaRoot).dropLast.inits.map (joinPath replicaRoot) ++ [target])

/-- Log lines a run writes per action, as opposed to the three summary
lines of a completed run.  There is no failure line: the program has no
message it could log for a failed operation. -/
def isActionLine : LogLine → Bool
  | .removedLine _ => true
  | .identicalLine _ => true
  | .copiedLine _ => true
  | .filesCopied _ => false
  | .filesRemoved _ => false
  | .filesUnaltered _ => false

/-! ## Induction principle

A joint induction principle for `Entry` and child listings, mirroring the
mutual structural recursions above. -/

mutual

theorem entryInd {P : Entry → Prop} {Q : List (String × Entry) → Prop}
    (hfile : ∀ c, P (.file c))
    (hdir : ∀ cs, Q cs → P (.dir cs))
    (hnil : Q [])
    (hcons : ∀ n e rest, P e → Q rest → Q ((n, e) :: rest)) :
    ∀ e, P e
  | .file c => hfile c
  | .dir cs => hdir cs (listInd hfile hdir hnil hcons cs)

theorem listInd {P : Entry → Prop} {Q : List (String × Entry) → Prop}
    (hfile : ∀ c, P (.file c))
    (hdir : ∀ cs, Q cs → P (.dir cs))
    (hnil : Q [])
    (hcons : ∀ n e rest, P e → Q rest → Q ((n, e) :: rest)) :
    ∀ cs, Q cs
  | [] => hnil
  | (n, e) :: rest =>
    hcons n e rest (entryInd hfile hdir hnil hcons e) (listInd hfile hdir hnil hcons rest)

end

/-! ## Basic lemmas about paths and listings -/

theorem lookup_nil (t : Entry) : lookup t [] = some t := by cases t <;> rfl

theorem lookup_append (t : Entry) (a b : List String) :
    lookup t (a ++ b) = (lookup t a).bind (fun e => lookup e b) := by
  induction a generalizing t with
  | nil => simp [lookup]
  | cons n a ih =>
    cases t with
    | file c => simp [lookup]
    | dir cs =>
      simp only [List.cons_append, lookup]
      cases childGet n cs with
      | none => simp
      | some e => simpa using ih e

theorem existsE_of_existsE_append {t : Entry} {a b : List String}
    (h : existsE t (a ++ b) = true) : existsE t a = true := by
  unfold existsE at *
  rw [lookup_append] at h
  cases hl : lookup t a with
  | none => rw [hl] at h; simp at h
  | some e => simp

theorem existsE_append_false {t : Entry} {a b : List String}
    (h : existsE t a = false) : existsE t (a ++ b) = false := by
  cases hb : existsE t (a ++ b) with
  | false => rfl
  | true => rw [existsE_of_existsE_append hb] at h; cases h

theorem childGet_childPut_self (n : String) (e : Entry) (cs : List (String × Entry)) :
    childGet n (childPut n e cs) = some e := by
  induction cs with
  | nil => simp [childPut, childGet]
  | cons x rest ih =>
    obtain ⟨m, e'⟩ := x
    by_cases h : m = n <;> simp [childPut, childGet, h, ih]

theorem childGet_childPut_ne (n m : String) (hnm : n ≠ m) (e : Entry)
    (cs : List (String × Entry)) :
    childGet m (childPut n e cs) = childGet m cs := by
  induction cs with
  | nil => simp [childPut, childGet, hnm]
  | cons x rest ih =>
    obtain ⟨m', e'⟩ := x
    by_cases h : m' = n
    · subst h
      simp [childPut, childGet, hnm, ih]
    · simp [childPut, childGet, h, ih]

theorem childPut_keys (n : String) (e : Entry) (cs : List (String × Entry)) :
    (childPut n e cs).map Prod.fst =
      if n ∈ cs.map Prod.fst then cs.map Prod.fst else cs.map Prod.fst ++ [n] := by
  induction cs with
  | nil => simp [childPut]
  | cons x rest ih =>
    obtain ⟨m, e'⟩ := x
    by_cases h : m = n
    · subst h; simp [childPut]
    · have hnm : ¬ n = m := fun hh => h hh.symm
      by_cases hm : n ∈ rest.map Prod.fst <;> simp [childPut, h, ih, hnm, hm]

theorem lookup_dir_cons (cs : List (String × Entry)) (n : String) (q : List String) :
    lookup (.dir cs) (n :: q) = (childGet n cs).bind (fun e => lookup e q) := by
  simp only [lookup]
  cases childGet n cs <;> simp

theorem childGet_eq_none_iff (n : String) (cs : List (String × Entry)) :
    childGet n cs = none ↔ n ∉ cs.map Prod.fst := by
  induction cs with
  | nil => simp [childGet]
  | cons x rest ih =>
    obtain ⟨m, e⟩ := x
    by_cases h : m = n
    · subst h; simp [childGet]
    · have : ¬ n = m := fun hh => h hh.symm
      simp [childGet, h, ih, this]

theorem childGet_map (n : String) (g : String → Entry → Entry) (cs : List (String × Entry)) :
    childGet n (cs.map (fun x => (x.1, g x.1 x.2))) = (childGet n cs).map (g n) := by
  induction cs with
  | nil => simp [childGet]
  | cons x rest ih =>
    obtain ⟨m, e⟩ := x
    by_cases h : m = n
    · subst h; simp [childGet]
    · simp [childGet, h, ih]

theorem childGet_filter (n : String) (keep : String × Entry → Bool)
    (cs : List (String × Entry)) (hnd : (cs.map Prod.fst).Nodup) :
    childGet n (cs.filter keep) =
      (childGet n cs).bind (fun e => if keep (n, e) then some e else none) := by
  induction cs with
  | nil => simp [childGet]
  | cons x rest ih =>
    obtain ⟨m, e⟩ := x
    simp only [List.map_cons, List.nodup_cons] at hnd
    by_cases h : m = n
    · subst h
      cases hk : keep (m, e) with
      | true => simp [childGet, List.filter_cons, hk]
      | false =>
        have hrest : childGet m rest = none := (childGet_eq_none_iff m rest).2 hnd.1
        have hrest' : childGet m (rest.filter keep) = none := by
          rw [childGet_eq_none_iff]
          intro hmem
          exact hnd.1 (by
            obtain ⟨x, hx, hfst⟩ := List.mem_map.1 hmem
            exact List.mem_map.2 ⟨x, (List.mem_filter.1 hx).1, hfst⟩)
        simp [List.filter_cons, hk, childGet, hrest, hrest']
    · cases hk : keep (m, e) with
      | true => simp [List.filter_cons, hk, childGet, h, ih hnd.2]
      | false => simp [List.filter_cons, hk, childGet, h, ih hnd.2]

theorem wfb_dir (cs : List (String × Entry)) :
    wfb (.dir cs) = true ↔ (cs.map Prod.fst).Nodup ∧ wfbL cs = true := by
  simp [wfb]

theorem wfbL_cons (n : String) (e : Entry) (rest : List (String × Entry)) :
    wfbL ((n, e) :: rest) = true ↔ wfb e = true ∧ wfbL rest = true := by
  simp [wfbL]

theorem wfbL_childGet {cs : List (String × Entry)} (hw : wfbL cs = true)
    {n : String} {e : Entry} (h : childGet n cs = some e) : wfb e = true := by
  induction cs with
  | nil => simp [childGet] at h
  | cons x rest ih =>
    obtain ⟨m, e'⟩ := x
    rw [wfbL_cons] at hw
    by_cases hm : m = n
    · subst hm; simp [childGet] at h; exact h ▸ hw.1
    · simp [childGet, hm] at h
      exact ih hw.2 h

/-! ## The deletion pass: characterization -/

/-- A listing entry the files loop keeps: a directory, or a file whose
corresponding source path exists. -/
def keepFile (src : Entry) (p : List String) (x : String × Entry) : Bool :=
  match x.2 with
  | .file _ => existsE src (p ++ [x.1])
  | .dir _ => true

/-- A listing entry the dirs loop keeps: a file, or a directory whose
corresponding source path exists. -/
def keepDir (src : Entry) (p : List String) (x : String × Entry) : Bool :=
  match x.2 with
  | .file _ => true
  | .dir _ => existsE src (p ++ [x.1])

theorem delFiles_eq (src : Entry) (p : List String) (cs : List (String × Entry)) :
    delFiles src p cs =
      (cs.filter (keepFile src p),
       cs.countP (fun x => !keepFile src p x),
       (cs.filter (fun x => !keepFile src p x)).map (fun x => .removedLine (p ++ [x.1]))) := by
  induction cs with
  | nil => simp [delFiles, List.countP, List.countP.go]
  | cons x rest ih =>
    obtain ⟨n, e⟩ := x
    cases e with
    | file c =>
      cases hx : existsE src (p ++ [n]) with
      | true =>
        simp [delFiles, ih, keepFile, hx, List.filter_cons, List.countP_cons]
      | false =>
        simp [delFiles, ih, keepFile, hx, List.filter_cons, List.countP_cons]
    | dir d =>
      simp [delFiles, ih, keepFile, List.filter_cons, List.countP_cons]

theorem delDirs_eq (src : Entry) (p : List String) (cs : List (String × Entry))
    (hEmpty : ∀ n d, (n, Entry.dir d) ∈ cs → existsE src (p ++ [n]) = false → d = []) :
    delDirs src p cs =
      (cs.filter (keepDir src p),
       (cs.filter (fun x => !keepDir src p x)).map (fun x => .removedLine (p ++ [x.1])),
       none) := by
  induction cs with
  | nil => simp [delDirs]
  | cons x rest ih =>
    obtain ⟨n, e⟩ := x
    have ihrest := ih (fun n' d hmem hex => hEmpty n' d (List.mem_cons_of_mem _ hmem) hex)
    cases e with
    | file c =>
      simp [delDirs, ihrest, keepDir, List.filter_cons]
    | dir d =>
      cases hx : existsE src (p ++ [n]) with
      | true =>
        simp [delDirs, ihrest, keepDir, hx, List.filter_cons]
      | false =>
        have hd : d = [] := hEmpty n d (List.mem_cons_self _ _) hx
        subst hd
        simp [delDirs, ihrest, keepDir, hx, List.filter_cons, List.isEmpty]

/-- Abbreviation for the per-entry action of the walk recursion. -/
def delChild (src : Entry) (p : List String) (x : String × Entry) : String × Entry :=
  (x.1, (delWalk src (p ++ [x.1]) x.2).1)

/-- Below a path that does not exist in the source, the walk empties every
directory it processes and never fails: every file is stale and removed,
every subdirectory is recursively emptied and then removed. -/
theorem delWalk_stale (src : Entry) :
    ∀ e : Entry, ∀ p, existsE src p = false →
      (delWalk src p e).2.2.2 = none ∧
        ∀ cs, e = Entry.dir cs → (delWalk src p e).1 = Entry.dir [] := by
  refine entryInd
    (P := fun e => ∀ p, existsE src p = false →
      (delWalk src p e).2.2.2 = none ∧
        ∀ cs, e = Entry.dir cs → (delWalk src p e).1 = Entry.dir [])
    (Q := fun csl => ∀ p, existsE src p = false →
      (∃ k lg, delWalkL src p csl = (csl.map (delChild src p), k, lg, none)) ∧
        ∀ n d, (n, Entry.dir d) ∈ csl → (delWalk src (p ++ [n]) (Entry.dir d)).1 = Entry.dir [])
    ?_ ?_ ?_ ?_
  · intro c p _
    exact ⟨rfl, by intro cs h; cases h⟩
  · intro cs hQ p hp
    obtain ⟨⟨k, lg, hL⟩, hsub⟩ := hQ p hp
    have hstale : ∀ n : String, existsE src (p ++ [n]) = false := fun n =>
      existsE_append_false hp
    -- the mapped listing: files keep their kind, stale dirs are emptied
    have hcs2 : ∀ x ∈ (cs.map (delChild src p)).filter (keepFile src p),
        keepDir src p x = false := by
      intro x hx
      have hx1 := (List.mem_filter.1 hx).1
      have hx2 := (List.mem_filter.1 hx).2
      obtain ⟨y, hy, hxy⟩ := List.mem_map.1 hx1
      cases he : x.2 with
      | file c =>
        rw [keepFile, he] at hx2
        rw [hstale x.1] at hx2
        cases hx2
      | dir d =>
        rw [keepDir, he, hstale x.1]
    have hEmpty : ∀ n d, (n, Entry.dir d) ∈ (cs.map (delChild src p)).filter (keepFile src p) →
        existsE src (p ++ [n]) = false → d = [] := by
      intro n d hmem _
      have hm := (List.mem_filter.1 hmem).1
      obtain ⟨⟨n', e'⟩, hy, hxy⟩ := List.mem_map.1 hm
      simp only [delChild] at hxy
      have hn : n' = n := congrArg Prod.fst hxy
      subst hn
      cases e' with
      | file c =>
        simp only [delWalk] at hxy
        cases congrArg Prod.snd hxy
      | dir d0 =>
        have := hsub n' d0 hy
        rw [this] at hxy
        have h2 := congrArg Prod.snd hxy
        simp at h2
        exact h2
    have hfilterNil : ((cs.map (delChild src p)).filter (keepFile src p)).filter
        (keepDir src p) = [] := by
      rw [List.filter_eq_nil_iff]
      intro x hx
      simp [hcs2 x hx]
    constructor
    · simp only [delWalk, hL, delFiles_eq, delDirs_eq _ _ _ hEmpty]
    · intro cs' hcseq
      injection hcseq with hcseq
      subst hcseq
      simp only [delWalk, hL, delFiles_eq, delDirs_eq _ _ _ hEmpty, hfilterNil]
  · intro p _
    exact ⟨⟨0, [], rfl⟩, by intro n d h; cases h⟩
  · intro n e rest hP hQ p hp
    have hstalen : existsE src (p ++ [n]) = false := existsE_append_false hp
    obtain ⟨⟨k, lg, hL⟩, hsub⟩ := hQ p hp
    have hPe := hP (p ++ [n]) hstalen
    constructor
    · refine ⟨(delWalk src (p ++ [n]) e).2.1 + k,
        (delWalk src (p ++ [n]) e).2.2.1 ++ lg, ?_⟩
      simp only [delWalkL]
      have hnone := hPe.1
      rcases hw : delWalk src (p ++ [n]) e with ⟨e', k1, lg1, er1⟩
      rw [hw] at hnone; simp at hnone
      subst hnone
      simp [hL, delChild, hw]
    · intro n' d hmem
      rcases List.mem_cons.1 hmem with h | h
      · injection h with h1 h2
        subst h1
        rw [← h2] at hPe
        exact hPe.2 d rfl
      · exact hsub n' d h

theorem entryIndStrong {P : Entry → Prop} (hfile : ∀ c, P (.file c))
    (hdir : ∀ cs, (∀ x ∈ cs, P x.2) → P (.dir cs)) : ∀ e, P e := by
  refine entryInd (P := P) (Q := fun csl => ∀ x ∈ csl, P x.2) hfile hdir ?_ ?_
  · intro x hx; cases hx
  · intro n e rest hP hQ x hx
    rcases List.mem_cons.1 hx with h | h
    · rw [h]; exact hP
    · exact hQ x h

theorem childGet_mem {n : String} {cs : List (String × Entry)} {e : Entry}
    (h : childGet n cs = some e) : (n, e) ∈ cs := by
  induction cs with
  | nil => simp [childGet] at h
  | cons x rest ih =>
    obtain ⟨m, e'⟩ := x
    by_cases hm : m = n
    · subst hm; simp [childGet] at h; simp [h]
    · simp [childGet, hm] at h
      exact List.mem_cons_of_mem _ (ih h)

theorem delWalk_file (src : Entry) (p : List String) (c : Content) :
    delWalk src p (.file c) = (.file c, 0, [], none) := by
  simp [delWalk]

theorem delWalk_dir_shape (src : Entry) (p : List String) (cs : List (String × Entry)) :
    ∃ ds, (delWalk src p (.dir cs)).1 = Entry.dir ds := by
  simp only [delWalk]
  rcases hL : delWalkL src p cs with ⟨cs1, k, lg, er⟩
  cases er with
  | none =>
    simp only
    exact ⟨_, rfl⟩
  | some e =>
    simp only
    exact ⟨_, rfl⟩

theorem wfbL_iff_all (cs : List (String × Entry)) :
    wfbL cs = true ↔ ∀ x ∈ cs, wfb x.2 = true := by
  induction cs with
  | nil => simp [wfbL]
  | cons x rest ih =>
    obtain ⟨n, e⟩ := x
    simp [wfbL, ih]

theorem delWalkL_children (src : Entry) (csl : List (String × Entry))
    (h : ∀ x ∈ csl, ∀ p', (delWalk src p' x.2).2.2.2 = none) (p : List String) :
    ∃ k lg, delWalkL src p csl = (csl.map (delChild src p), k, lg, none) := by
  induction csl with
  | nil => exact ⟨0, [], rfl⟩
  | cons x rest ih =>
    obtain ⟨n, e⟩ := x
    obtain ⟨k, lg, hrest⟩ := ih (fun y hy => h y (List.mem_cons_of_mem _ hy))
    refine ⟨(delWalk src (p ++ [n]) e).2.1 + k, (delWalk src (p ++ [n]) e).2.2.1 ++ lg, ?_⟩
    simp only [delWalkL]
    rcases hw : delWalk src (p ++ [n]) e with ⟨e', k1, lg1, er1⟩
    have her : er1 = none := by
      have := h (n, e) (List.mem_cons_self _ _) (p ++ [n])
      rw [hw] at this
      exact this
    subst her
    simp [hrest, delChild, hw]

/-- After the recursion into the children, every stale directory entry of
the listing has already been emptied, so `os.rmdir` always succeeds. -/
theorem delWalk_filter_empty (src : Entry) (p : List String) (cs : List (String × Entry)) :
    ∀ n d, (n, Entry.dir d) ∈ (cs.map (delChild src p)).filter (keepFile src p) →
      existsE src (p ++ [n]) = false → d = [] := by
  intro n d hmem hex
  have hm := (List.mem_filter.1 hmem).1
  obtain ⟨⟨n', e'⟩, hy, hxy⟩ := List.mem_map.1 hm
  simp only [delChild] at hxy
  have hn : n' = n := congrArg Prod.fst hxy
  subst hn
  cases e' with
  | file c =>
    rw [delWalk_file] at hxy
    cases congrArg Prod.snd hxy
  | dir d0 =>
    have := (delWalk_stale src (.dir d0) (p ++ [n']) hex).2 d0 rfl
    rw [this] at hxy
    have h2 := congrArg Prod.snd hxy
    simp at h2
    exact h2

theorem delWalk_err (src : Entry) : ∀ e : Entry, ∀ p, (delWalk src p e).2.2.2 = none := by
  refine entryIndStrong (fun c p => by simp [delWalk]) ?_
  intro cs hQ p
  obtain ⟨k, lg, hL⟩ := delWalkL_children src cs (fun x hx p' => hQ x hx p') p
  simp only [delWalk, hL, delFiles_eq, delDirs_eq _ _ _ (delWalk_filter_empty src p cs)]

theorem delWalkL_shape (src : Entry) (p : List String) (cs : List (String × Entry)) :
    ∃ lg, delWalkL src p cs =
      (cs.map (delChild src p),
       (cs.map (fun x => (delWalk src (p ++ [x.1]) x.2).2.1)).sum, lg, none) := by
  induction cs with
  | nil => exact ⟨[], rfl⟩
  | cons x rest ih =>
    obtain ⟨n, e⟩ := x
    obtain ⟨lg, hrest⟩ := ih
    refine ⟨(delWalk src (p ++ [n]) e).2.2.1 ++ lg, ?_⟩
    simp only [delWalkL]
    rcases hw : delWalk src (p ++ [n]) e with ⟨e', k1, lg1, er1⟩
    have : er1 = none := by
      have := delWalk_err src e (p ++ [n])
      rw [hw] at this
      exact this
    subst this
    simp [hrest, delChild, hw]

theorem walkFiles_file (p : List String) (c : Content) : walkFiles p (.file c) = [] := by
  simp [walkFiles]

theorem walkFiles_dir (p : List String) (cs : List (String × Entry)) :
    walkFiles p (.dir cs) = walkFilesHere p cs ++ walkFilesSub p cs := by
  simp [walkFiles]

theorem delWalk_count_file (src : Entry) (p : List String) (c : Content) :
    (delWalk src p (.file c)).2.1 = 0 := by
  rw [delWalk_file]

theorem keepFile_delChild (src : Entry) (p : List String) (x : String × Entry) :
    keepFile src p (delChild src p x) = keepFile src p x := by
  obtain ⟨n, e⟩ := x
  cases e with
  | file c => simp [delChild, delWalk_file, keepFile]
  | dir cs =>
    obtain ⟨ds, hds⟩ := delWalk_dir_shape src (p ++ [n]) cs
    simp [delChild, hds, keepFile]

theorem countP_walkFilesHere (src : Entry) (p : List String) (cs : List (String × Entry)) :
    (walkFilesHere p cs).countP (fun q => !existsE src q) =
      cs.countP (fun x => !keepFile src p x) := by
  induction cs with
  | nil => simp [walkFilesHere]
  | cons x rest ih =>
    obtain ⟨n, e⟩ := x
    cases e with
    | file c => simp [walkFilesHere, List.countP_cons, ih, keepFile]
    | dir d => simp [walkFilesHere, List.countP_cons, ih, keepFile]

theorem countP_walkFilesSub (pr : List String → Bool) (p : List String)
    (cs : List (String × Entry)) :
    (walkFilesSub p cs).countP pr =
      (cs.map (fun x => (walkFiles (p ++ [x.1]) x.2).countP pr)).sum := by
  induction cs with
  | nil => simp [walkFilesSub]
  | cons x rest ih =>
    obtain ⟨n, e⟩ := x
    cases e with
    | file c => simp [walkFilesSub, ih, walkFiles_file]
    | dir d => simp [walkFilesSub, ih, List.countP_append]

/-- Master characterization of the deletion pass, by joint induction on
the replica tree: (i) an entry survives exactly when its corresponding
source path exists and it survived in the original tree; (ii) surviving
regular files keep their bytes and no file appears; (iii) the removals
counter counts exactly the walked files whose source path does not exist;
(iv) well-formedness is preserved. -/
theorem delWalk_master (src : Entry) :
    ∀ e : Entry, wfb e = true → ∀ p,
      (∀ q, (lookup (delWalk src p e).1 q).isSome =
        ((lookup e q).isSome && (q.isEmpty || existsE src (p ++ q)))) ∧
      (∀ q c, lookup (delWalk src p e).1 q = some (.file c) ↔
        (lookup e q = some (.file c) ∧ (q = [] ∨ existsE src (p ++ q) = true))) ∧
      (delWalk src p e).2.1 = (walkFiles p e).countP (fun q => !existsE src q) ∧
      wfb (delWalk src p e).1 = true := by
  refine entryIndStrong ?_ ?_
  · intro c _ p
    rw [delWalk_file]
    refine ⟨?_, ?_, ?_, ?_⟩
    · intro q
      cases q with
      | nil => simp [lookup_nil]
      | cons n q' => simp [lookup]
    · intro q c'
      cases q with
      | nil => simp [lookup_nil]
      | cons n q' => simp [lookup]
    · simp [walkFiles_file]
    · simp [wfb]
  · intro cs hQ hwf p
    rw [wfb_dir] at hwf
    obtain ⟨hnd, hwL⟩ := hwf
    obtain ⟨lg0, hL⟩ := delWalkL_shape src p cs
    have hmapfst : (cs.map (delChild src p)).map Prod.fst = cs.map Prod.fst := by
      rw [List.map_map]
      exact List.map_congr_left (fun x _ => rfl)
    have hnd1 : ((cs.map (delChild src p)).map Prod.fst).Nodup := by
      rw [hmapfst]; exact hnd
    have hnd2 : (((cs.map (delChild src p)).filter (keepFile src p)).map Prod.fst).Nodup :=
      hnd1.sublist ((List.filter_sublist _).map Prod.fst)
    have hdw : (delWalk src p (.dir cs)).1 =
          .dir (((cs.map (delChild src p)).filter (keepFile src p)).filter (keepDir src p)) ∧
        (delWalk src p (.dir cs)).2.1 =
          (cs.map (fun x => (delWalk src (p ++ [x.1]) x.2).2.1)).sum
            + (cs.map (delChild src p)).countP (fun x => !keepFile src p x) := by
      simp only [delWalk, hL, delFiles_eq, delDirs_eq _ _ _ (delWalk_filter_empty src p cs)]
      exact ⟨by trivial, by trivial⟩
    have hCG : ∀ n,
        childGet n (((cs.map (delChild src p)).filter (keepFile src p)).filter (keepDir src p)) =
          (childGet n cs).bind (fun e0 =>
            if existsE src (p ++ [n]) = true then some ((delWalk src (p ++ [n]) e0).1)
            else none) := by
      intro n
      rw [childGet_filter _ _ _ hnd2, childGet_filter _ _ _ hnd1]
      have hrw : cs.map (delChild src p) =
          cs.map (fun x => (x.1, (fun m e => (delWalk src (p ++ [m]) e).1) x.1 x.2)) := rfl
      have hcm := childGet_map n (fun m e => (delWalk src (p ++ [m]) e).1) cs
      rw [hrw, hcm]
      cases hg : childGet n cs with
      | none => rfl
      | some e0 =>
        cases e0 with
        | file c =>
          cases hex : existsE src (p ++ [n]) <;>
            simp [delWalk_file, keepFile, keepDir, hex]
        | dir d0 =>
          obtain ⟨ds, hds⟩ := delWalk_dir_shape src (p ++ [n]) d0
          cases hex : existsE src (p ++ [n]) <;>
            simp [hds, keepFile, keepDir, hex]
    refine ⟨?_, ?_, ?_, ?_⟩
    · intro q
      rw [hdw.1]
      cases q with
      | nil => simp [lookup_nil]
      | cons n q' =>
        rw [lookup_dir_cons, lookup_dir_cons, hCG n]
        cases hg : childGet n cs with
        | none => simp
        | some e0 =>
          have hfacts := hQ (n, e0) (childGet_mem hg) (wfbL_childGet hwL hg) (p ++ [n])
          cases hex : existsE src (p ++ [n]) with
          | false =>
            have hexts : existsE src (p ++ n :: q') = false := by
              rw [List.append_cons]
              exact existsE_append_false hex
            simp [hex, hexts]
          | true =>
            simp only [hex, if_true, Option.some_bind]
            rw [hfacts.1 q']
            cases q' with
            | nil => simp [hex]
            | cons m q'' =>
              rw [List.append_cons p n (m :: q'')]
              simp
    · intro q c
      rw [hdw.1]
      cases q with
      | nil =>
        constructor
        · intro h; cases h
        · rintro ⟨h, -⟩; cases h
      | cons n q' =>
        rw [lookup_dir_cons, lookup_dir_cons, hCG n]
        cases hg : childGet n cs with
        | none => simp
        | some e0 =>
          have hfacts := hQ (n, e0) (childGet_mem hg) (wfbL_childGet hwL hg) (p ++ [n])
          cases hex : existsE src (p ++ [n]) with
          | false =>
            have hexts : existsE src (p ++ n :: q') = false := by
              rw [List.append_cons]
              exact existsE_append_false hex
            simp [hex, hexts]
          | true =>
            simp only [hex, if_true, Option.some_bind]
            rw [hfacts.2.1 q' c]
            cases q' with
            | nil => simp [hex, lookup_nil]
            | cons m q'' =>
              rw [List.append_cons p n (m :: q'')]
              simp
    · rw [hdw.2, walkFiles_dir, List.countP_append, countP_walkFilesHere,
        countP_walkFilesSub]
      have hsum : (cs.map (fun x => (delWalk src (p ++ [x.1]) x.2).2.1)).sum =
          (cs.map (fun x => (walkFiles (p ++ [x.1]) x.2).countP
            (fun q => !existsE src q))).sum := by
        congr 1
        refine List.map_congr_left ?_
        intro x hx
        obtain ⟨n, e⟩ := x
        cases e with
        | file c => simp [delWalk_file, walkFiles_file]
        | dir d =>
          have hwfx : wfb (Entry.dir d) = true :=
            (wfbL_iff_all cs).1 hwL (n, .dir d) hx
          exact (hQ (n, .dir d) hx hwfx (p ++ [n])).2.2.1
      have hcnt : (cs.map (delChild src p)).countP (fun x => !keepFile src p x) =
          cs.countP (fun x => !keepFile src p x) := by
        rw [List.countP_map]
        refine List.countP_congr ?_
        intro x _
        simp [Function.comp, keepFile_delChild]
      rw [hcnt, hsum]
      omega
    · rw [hdw.1, wfb_dir]
      refine ⟨hnd2.sublist ((List.filter_sublist _).map Prod.fst), ?_⟩
      rw [wfbL_iff_all]
      intro x hx
      have hx1 : x ∈ (cs.map (delChild src p)).filter (keepFile src p) :=
        List.filter_sublist _ |>.subset hx
      have hx2 : x ∈ cs.map (delChild src p) :=
        List.filter_sublist _ |>.subset hx1
      obtain ⟨y, hy, hxy⟩ := List.mem_map.1 hx2
      obtain ⟨n, e⟩ := y
      cases e with
      | file c =>
        rw [← hxy]
        simp [delChild, delWalk_file, wfb]
      | dir d =>
        have hwfy : wfb (Entry.dir d) = true := (wfbL_iff_all cs).1 hwL (n, .dir d) hy
        rw [← hxy]
        exact (hQ (n, .dir d) hy hwfy (p ++ [n])).2.2.2

theorem childGet_of_mem_nodup {n : String} {e : Entry} {cs : List (String × Entry)}
    (hnd : (cs.map Prod.fst).Nodup) (hmem : (n, e) ∈ cs) : childGet n cs = some e := by
  induction cs with
  | nil => cases hmem
  | cons x rest ih =>
    obtain ⟨m, e'⟩ := x
    simp only [List.map_cons, List.nodup_cons] at hnd
    rcases List.mem_cons.1 hmem with h | h
    · injection h with h1 h2
      subst h1; subst h2
      simp [childGet]
    · have hne : m ≠ n := by
        intro hh
        subst hh
        exact hnd.1 (List.mem_map.2 ⟨(m, e), h, rfl⟩)
      simp [childGet, hne, ih hnd.2 h]

theorem delWalkL_id (src : Entry) (p : List String) (csl : List (String × Entry))
    (h : ∀ x ∈ csl, delWalk src (p ++ [x.1]) x.2 = (x.2, 0, [], none)) :
    delWalkL src p csl = (csl, 0, [], none) := by
  induction csl with
  | nil => rfl
  | cons x rest ih =>
    obtain ⟨n, e⟩ := x
    simp only [delWalkL, h (n, e) (List.mem_cons_self _ _),
      ih (fun y hy => h y (List.mem_cons_of_mem _ hy))]
    simp

/-- When every replica path also exists under the source, the deletion
pass is the identity: no removal, no log line, no error. -/
theorem delWalk_id (src : Entry) :
    ∀ e : Entry, wfb e = true → ∀ p,
      (∀ q, (lookup e q).isSome = true → existsE src (p ++ q) = true) →
      delWalk src p e = (e, 0, [], none) := by
  refine entryIndStrong ?_ ?_
  · intro c _ p _
    exact delWalk_file src p c
  · intro cs hQ hwf p hyp
    rw [wfb_dir] at hwf
    obtain ⟨hnd, hwL⟩ := hwf
    have hchild : ∀ x ∈ cs, delWalk src (p ++ [x.1]) x.2 = (x.2, 0, [], none) := by
      intro x hx
      obtain ⟨n, e⟩ := x
      refine hQ (n, e) hx ((wfbL_iff_all cs).1 hwL (n, e) hx) (p ++ [n]) ?_
      intro q hq
      have : (lookup (Entry.dir cs) (n :: q)).isSome = true := by
        rw [lookup_dir_cons, childGet_of_mem_nodup hnd hx]
        simpa using hq
      have := hyp (n :: q) this
      rwa [List.append_cons] at this
    have hkeepF : ∀ x ∈ cs, keepFile src p x = true := by
      intro x hx
      obtain ⟨n, e⟩ := x
      cases e with
      | dir d => rfl
      | file c =>
        rw [keepFile]
        refine hyp [n] ?_
        rw [lookup_dir_cons, childGet_of_mem_nodup hnd hx]
        rfl
    have hkeepD : ∀ x ∈ cs, keepDir src p x = true := by
      intro x hx
      obtain ⟨n, e⟩ := x
      cases e with
      | file c => rfl
      | dir d =>
        rw [keepDir]
        refine hyp [n] ?_
        rw [lookup_dir_cons, childGet_of_mem_nodup hnd hx]
        rfl
    have hF : cs.filter (keepFile src p) = cs := List.filter_eq_self.2 hkeepF
    have hD : cs.filter (keepDir src p) = cs := List.filter_eq_self.2 hkeepD
    have hFc : cs.countP (fun x => !keepFile src p x) = 0 := by
      rw [List.countP_eq_zero]
      intro x hx
      simp [hkeepF x hx]
    have hFn : cs.filter (fun x => !keepFile src p x) = [] := by
      rw [List.filter_eq_nil_iff]
      intro x hx
      simp [hkeepF x hx]
    have hDn : cs.filter (fun x => !keepDir src p x) = [] := by
      rw [List.filter_eq_nil_iff]
      intro x hx
      simp [hkeepD x hx]
    have hEmp : ∀ n d, (n, Entry.dir d) ∈ cs →
        existsE src (p ++ [n]) = false → d = [] := by
      intro n d hmem hex
      have := hkeepD (n, .dir d) hmem
      simp [keepDir] at this
      rw [this] at hex
      cases hex
    simp only [delWalk, delWalkL_id src p cs hchild, delFiles_eq, hF, hFc, hFn,
      delDirs_eq _ _ _ hEmp, hD, hDn]
    simp

theorem delWalkL_log (src : Entry) (p : List String) (csl : List (String × Entry)) :
    ∀ l ∈ (delWalkL src p csl).2.2.1, ∃ x ∈ csl, l ∈ (delWalk src (p ++ [x.1]) x.2).2.2.1 := by
  induction csl with
  | nil => intro l hl; cases hl
  | cons x rest ih =>
    obtain ⟨n, e⟩ := x
    intro l hl
    simp only [delWalkL] at hl
    rcases hw : delWalk src (p ++ [n]) e with ⟨e', k1, lg1, er1⟩
    have her : er1 = none := by
      have := delWalk_err src e (p ++ [n])
      rw [hw] at this
      exact this
    subst her
    rw [hw] at hl
    simp only at hl
    rcases hrest : delWalkL src p rest with ⟨rest', k2, lg2, er2⟩
    rw [hrest] at hl
    simp only at hl
    rcases List.mem_append.1 hl with h | h
    · exact ⟨(n, e), List.mem_cons_self _ _, by rw [hw]; exact h⟩
    · obtain ⟨y, hy, hmem⟩ := ih l (by rw [hrest]; exact h)
      exact ⟨y, List.mem_cons_of_mem _ hy, hmem⟩

/-- Every log line the deletion pass writes is a removal line. -/
theorem delWalk_log (src : Entry) :
    ∀ e : Entry, ∀ p, ∀ l ∈ (delWalk src p e).2.2.1, ∃ q, l = LogLine.removedLine q := by
  refine entryIndStrong ?_ ?_
  · intro c p l hl
    rw [delWalk_file] at hl
    cases hl
  · intro cs hQ p l hl
    obtain ⟨lg0, hL⟩ := delWalkL_shape src p cs
    simp only [delWalk, hL, delFiles_eq,
      delDirs_eq _ _ _ (delWalk_filter_empty src p cs)] at hl
    rcases List.mem_append.1 hl with h | h
    · rcases List.mem_append.1 h with h1 | h1
      · have h2 : l ∈ (delWalkL src p cs).2.2.1 := by rw [hL]; exact h1
        obtain ⟨x, hx, hmem⟩ := delWalkL_log src p cs l h2
        exact hQ x hx (p ++ [x.1]) l hmem
      · obtain ⟨x, _, hxl⟩ := List.mem_map.1 h1
        exact ⟨_, hxl.symm⟩
    · obtain ⟨x, _, hxl⟩ := List.mem_map.1 h
      exact ⟨_, hxl.symm⟩

/-! ## The replica mutation primitives: characterization -/

theorem mem_childPut {x : String × Entry} {n : String} {e : Entry}
    {cs : List (String × Entry)} (h : x ∈ childPut n e cs) : x = (n, e) ∨ x ∈ cs := by
  induction cs with
  | nil => simpa [childPut] using h
  | cons y rest ih =>
    obtain ⟨m, e'⟩ := y
    by_cases hm : m = n
    · subst hm
      simp only [childPut, if_pos rfl] at h
      rcases List.mem_cons.1 h with h | h
      · exact Or.inl h
      · exact Or.inr (List.mem_cons_of_mem _ h)
    · simp only [childPut, if_neg hm] at h
      rcases List.mem_cons.1 h with h | h
      · exact Or.inr (h ▸ List.mem_cons_self _ _)
      · rcases ih h with h | h
        · exact Or.inl h
        · exact Or.inr (List.mem_cons_of_mem _ h)

theorem wfb_childPut (n : String) (e : Entry) (cs : List (String × Entry))
    (hw : wfb (.dir cs) = true) (he : wfb e = true) :
    wfb (.dir (childPut n e cs)) = true := by
  rw [wfb_dir] at hw ⊢
  obtain ⟨hnd, hwL⟩ := hw
  constructor
  · rw [childPut_keys]
    by_cases hm : n ∈ cs.map Prod.fst
    · simpa [hm] using hnd
    · simp only [hm, if_neg]
      simp [List.nodup_append, hnd, hm]
  · rw [wfbL_iff_all]
    intro x hx
    rcases mem_childPut hx with h | h
    · rw [h]; exact he
    · exact (wfbL_iff_all cs).1 hwL x h

theorem setFile_self : ∀ (p : List String) (t t' : Entry) (c : Content),
    setFile t p c = some t' → lookup t' p = some (.file c)
  | [], t, t', c, h => by simp [setFile] at h
  | [n], t, t', c, h => by
    cases t with
    | file _ => simp [setFile] at h
    | dir cs =>
      simp only [setFile] at h
      injection h with h
      subst h
      rw [lookup_dir_cons, childGet_childPut_self]
      rfl
  | n :: n2 :: rest, t, t', c, h => by
    cases t with
    | file _ => simp [setFile] at h
    | dir cs =>
      cases hg : childGet n cs with
      | none => simp [setFile, hg] at h
      | some e =>
        cases hs : setFile e (n2 :: rest) c with
        | none => simp [setFile, hg, hs] at h
        | some e' =>
          simp only [setFile, hg, hs] at h
          injection h with h
          subst h
          rw [lookup_dir_cons, childGet_childPut_self]
          exact setFile_self (n2 :: rest) e e' c hs

theorem setFile_incomp : ∀ (p : List String) (t t' : Entry) (c : Content) (q : List String),
    setFile t p c = some t' → ¬ p <+: q → ¬ q <+: p → lookup t' q = lookup t q
  | [], t, t', c, q, h, _, _ => by simp [setFile] at h
  | n :: p', t, t', c, q, h, hpq, hqp => by
    cases t with
    | file _ => cases p' <;> simp [setFile] at h
    | dir cs =>
      cases q with
      | nil => exact absurd List.nil_prefix hqp
      | cons m q' =>
        by_cases hm : m = n
        · subst hm
          have hpq' : ¬ p' <+: q' := fun hh => hpq (List.cons_prefix_cons.2 ⟨rfl, hh⟩)
          have hqp' : ¬ q' <+: p' := fun hh => hqp (List.cons_prefix_cons.2 ⟨rfl, hh⟩)
          cases p' with
          | nil => exact absurd List.nil_prefix hpq'
          | cons n2 rest =>
            cases hg : childGet m cs with
            | none => simp [setFile, hg] at h
            | some e =>
              cases hs : setFile e (n2 :: rest) c with
              | none => simp [setFile, hg, hs] at h
              | some e' =>
                simp only [setFile, hg, hs] at h
                injection h with h
                subst h
                rw [lookup_dir_cons, lookup_dir_cons, childGet_childPut_self, hg]
                simp only [Option.some_bind]
                exact setFile_incomp (n2 :: rest) e e' c q' hs hpq' hqp'
        · have hne : ¬ n = m := fun hh => hm hh.symm
          cases p' with
          | nil =>
            simp only [setFile] at h
            injection h with h
            subst h
            rw [lookup_dir_cons, lookup_dir_cons, childGet_childPut_ne n m hne]
          | cons n2 rest =>
            cases hg : childGet n cs with
            | none => simp [setFile, hg] at h
            | some e =>
              cases hs : setFile e (n2 :: rest) c with
              | none => simp [setFile, hg, hs] at h
              | some e' =>
                simp only [setFile, hg, hs] at h
                injection h with h
                subst h
                rw [lookup_dir_cons, lookup_dir_cons, childGet_childPut_ne n m hne]

theorem setFile_ext : ∀ (p : List String) (t t' : Entry) (c : Content) (q : List String),
    setFile t p c = some t' → p <+: q → q ≠ p → lookup t' q = none
  | [], t, t', c, q, h, _, _ => by simp [setFile] at h
  | n :: p', t, t', c, q, h, hpq, hne => by
    cases t with
    | file _ => cases p' <;> simp [setFile] at h
    | dir cs =>
      cases q with
      | nil => cases List.prefix_nil.1 hpq
      | cons m q' =>
        obtain ⟨hm, hpq'⟩ := List.cons_prefix_cons.1 hpq
        subst hm
        cases p' with
        | nil =>
          simp only [setFile] at h
          injection h with h
          subst h
          rw [lookup_dir_cons, childGet_childPut_self]
          cases q' with
          | nil => exact absurd rfl hne
          | cons _ _ => rfl
        | cons n2 rest =>
          cases hg : childGet n cs with
          | none => simp [setFile, hg] at h
          | some e =>
            cases hs : setFile e (n2 :: rest) c with
            | none => simp [setFile, hg, hs] at h
            | some e' =>
              simp only [setFile, hg, hs] at h
              injection h with h
              subst h
              rw [lookup_dir_cons, childGet_childPut_self]
              have hq' : q' ≠ n2 :: rest := fun hh => hne (by rw [hh])
              simp only [Option.some_bind]
              exact setFile_ext (n2 :: rest) e e' c q' hs hpq' hq'

theorem setFile_short : ∀ (p : List String) (t t' : Entry) (c : Content) (q : List String),
    setFile t p c = some t' → q <+: p → q ≠ p →
      (∃ ds, lookup t q = some (.dir ds)) ∧ ∃ ds', lookup t' q = some (.dir ds')
  | [], t, t', c, q, h, _, _ => by simp [setFile] at h
  | n :: p', t, t', c, q, h, hqp, hne => by
    cases t with
    | file _ => cases p' <;> simp [setFile] at h
    | dir cs =>
      cases q with
      | nil =>
        refine ⟨⟨cs, by rw [lookup_nil]⟩, ?_⟩
        cases p' with
        | nil =>
          simp only [setFile] at h
          injection h with h
          subst h
          exact ⟨_, by rw [lookup_nil]⟩
        | cons n2 rest =>
          cases hg : childGet n cs with
          | none => simp [setFile, hg] at h
          | some e =>
            cases hs : setFile e (n2 :: rest) c with
            | none => simp [setFile, hg, hs] at h
            | some e' =>
              simp only [setFile, hg, hs] at h
              injection h with h
              subst h
              exact ⟨_, by rw [lookup_nil]⟩
      | cons m q' =>
        obtain ⟨hm, hqp'⟩ := List.cons_prefix_cons.1 hqp
        subst hm
        cases p' with
        | nil =>
          cases List.prefix_nil.1 hqp' with
          | refl => exact absurd rfl hne
        | cons n2 rest =>
          cases hg : childGet m cs with
          | none => simp [setFile, hg] at h
          | some e =>
            cases hs : setFile e (n2 :: rest) c with
            | none => simp [setFile, hg, hs] at h
            | some e' =>
              simp only [setFile, hg, hs] at h
              injection h with h
              subst h
              have hq' : q' ≠ n2 :: rest := fun hh => hne (by rw [hh])
              have := setFile_short (n2 :: rest) e e' c q' hs hqp' hq'
              rw [lookup_dir_cons, lookup_dir_cons, childGet_childPut_self, hg]
              simpa using this

theorem setFile_wf : ∀ (p : List String) (t t' : Entry) (c : Content),
    setFile t p c = some t' → wfb t = true → wfb t' = true
  | [], t, t', c, h, _ => by simp [setFile] at h
  | [n], t, t', c, h, hw => by
    cases t with
    | file _ => simp [setFile] at h
    | dir cs =>
      simp only [setFile] at h
      injection h with h
      subst h
      exact wfb_childPut n _ cs hw (by simp [wfb])
  | n :: n2 :: rest, t, t', c, h, hw => by
    cases t with
    | file _ => simp [setFile] at h
    | dir cs =>
      cases hg : childGet n cs with
      | none => simp [setFile, hg] at h
      | some e =>
        cases hs : setFile e (n2 :: rest) c with
        | none => simp [setFile, hg, hs] at h
        | some e' =>
          simp only [setFile, hg, hs] at h
          injection h with h
          subst h
          have hwe : wfb e = true := wfbL_childGet ((wfb_dir cs).1 hw).2 hg
          exact wfb_childPut n e' cs hw (setFile_wf (n2 :: rest) e e' c hs hwe)

theorem mkChain_isDir (l : List String) : ∃ ds, mkChain l = .dir ds := by
  cases l <;> exact ⟨_, rfl⟩

theorem mkChain_lookup (q : List String) : ∀ l : List String,
    lookup (mkChain l) q = if q <+: l then some (mkChain (l.drop q.length)) else none := by
  induction q with
  | nil =>
    intro l
    simp [lookup_nil, List.nil_prefix]
  | cons m q' ih =>
    intro l
    cases l with
    | nil =>
      simp only [mkChain, lookup_dir_cons, childGet]
      simp [ List.prefix_nil]
    | cons n l' =>
      simp only [mkChain, lookup_dir_cons, childGet]
      by_cases hm : n = m
      · subst hm
        simp only [if_true, eq_self_iff_true, Option.some_bind]
        rw [ih l']
        by_cases hq : q' <+: l'
        · simp [hq, List.cons_prefix_cons]
        · simp [hq, List.cons_prefix_cons]
      · have : ¬ (m :: q' <+: n :: l') := by
          intro hh
          exact hm ((List.cons_prefix_cons.1 hh).1.symm)
        simp [hm, this]

theorem mkChain_wf (l : List String) : wfb (mkChain l) = true := by
  induction l with
  | nil => simp [mkChain, wfb, wfbL]
  | cons n l' ih => simp [mkChain, wfb, wfbL, ih]

theorem makedirs_isSome : ∀ (d : List String) (t t' : Entry),
    makedirs t d = .ok t' → ∀ q,
      ((lookup t' q).isSome = true ↔ ((lookup t q).isSome = true ∨ q <+: d))
  | [], t, t', h => by
    cases t <;> simp [makedirs] at h
  | n :: rest, .file c, t', h => by simp [makedirs] at h
  | n :: rest, .dir cs, t', h => by
    intro q
    cases hg : childGet n cs with
    | none =>
      simp only [makedirs, hg] at h
      injection h with h
      subst h
      cases q with
      | nil => simp [lookup_nil, List.nil_prefix]
      | cons m q' =>
        by_cases hm : m = n
        · subst hm
          rw [lookup_dir_cons, lookup_dir_cons, childGet_childPut_self, hg]
          simp only [Option.some_bind, Option.none_bind, mkChain_lookup]
          by_cases hq : q' <+: rest
          · simp [hq, List.cons_prefix_cons]
          · simp [hq, List.cons_prefix_cons]
        · have hne : ¬ n = m := fun hh => hm hh.symm
          have hnp : ¬ (m :: q' <+: n :: rest) := by
            intro hh
            exact hne ((List.cons_prefix_cons.1 hh).1.symm)
          rw [lookup_dir_cons, lookup_dir_cons, childGet_childPut_ne n m hne]
          simp [hnp]
    | some e =>
      cases rest with
      | nil => simp [makedirs, hg] at h
      | cons r rs =>
        cases hmk : makedirs e (r :: rs) with
        | error er => simp [makedirs, hg, hmk] at h
        | ok e' =>
          simp only [makedirs, hg, List.isEmpty, hmk] at h
          injection h with h
          subst h
          cases q with
          | nil => simp [lookup_nil, List.nil_prefix]
          | cons m q' =>
            by_cases hm : m = n
            · subst hm
              rw [lookup_dir_cons, lookup_dir_cons, childGet_childPut_self, hg]
              simp only [Option.some_bind]
              rw [makedirs_isSome (r :: rs) e e' hmk q']
              simp [List.cons_prefix_cons]
            · have hne : ¬ n = m := fun hh => hm hh.symm
              have hnp : ¬ (m :: q' <+: n :: r :: rs) := by
                intro hh
                exact hne ((List.cons_prefix_cons.1 hh).1.symm)
              rw [lookup_dir_cons, lookup_dir_cons, childGet_childPut_ne n m hne]
              simp [hnp]

theorem makedirs_file : ∀ (d : List String) (t t' : Entry),
    makedirs t d = .ok t' → ∀ q c,
      (lookup t' q = some (.file c) ↔ lookup t q = some (.file c))
  | [], t, t', h => by
    cases t <;> simp [makedirs] at h
  | n :: rest, .file c0, t', h => by simp [makedirs] at h
  | n :: rest, .dir cs, t', h => by
    intro q c
    cases hg : childGet n cs with
    | none =>
      simp only [makedirs, hg] at h
      injection h with h
      subst h
      cases q with
      | nil =>
        rw [lookup_nil, lookup_nil]
        constructor <;> (intro hh; cases hh)
      | cons m q' =>
        by_cases hm : m = n
        · subst hm
          rw [lookup_dir_cons, lookup_dir_cons, childGet_childPut_self, hg]
          simp only [Option.some_bind, Option.none_bind, mkChain_lookup]
          by_cases hq : q' <+: rest
          · simp only [hq, if_pos]
            obtain ⟨ds, hds⟩ := mkChain_isDir (rest.drop q'.length)
            rw [hds]
            constructor <;> (intro hh; cases hh)
          · simp [hq]
        · have hne : ¬ n = m := fun hh => hm hh.symm
          rw [lookup_dir_cons, lookup_dir_cons, childGet_childPut_ne n m hne]
    | some e =>
      cases rest with
      | nil => simp [makedirs, hg] at h
      | cons r rs =>
        cases hmk : makedirs e (r :: rs) with
        | error er => simp [makedirs, hg, hmk] at h
        | ok e' =>
          simp only [makedirs, hg, List.isEmpty, hmk] at h
          injection h with h
          subst h
          cases q with
          | nil =>
            rw [lookup_nil, lookup_nil]
            constructor <;> (intro hh; cases hh)
          | cons m q' =>
            by_cases hm : m = n
            · subst hm
              rw [lookup_dir_cons, lookup_dir_cons, childGet_childPut_self, hg]
              simp only [Option.some_bind]
              exact makedirs_file (r :: rs) e e' hmk q' c
            · have hne : ¬ n = m := fun hh => hm hh.symm
              rw [lookup_dir_cons, lookup_dir_cons, childGet_childPut_ne n m hne]

theorem makedirs_dirs : ∀ (d : List String) (t t' : Entry),
    makedirs t d = .ok t' → ∀ q, q <+: d → ∃ ds, lookup t' q = some (.dir ds)
  | [], t, t', h => by
    cases t <;> simp [makedirs] at h
  | n :: rest, .file c0, t', h => by simp [makedirs] at h
  | n :: rest, .dir cs, t', h => by
    intro q hq
    cases hg : childGet n cs with
    | none =>
      simp only [makedirs, hg] at h
      injection h with h
      subst h
      cases q with
      | nil => exact ⟨_, by rw [lookup_nil]⟩
      | cons m q' =>
        obtain ⟨hm, hq'⟩ := List.cons_prefix_cons.1 hq
        subst hm
        rw [lookup_dir_cons, childGet_childPut_self]
        simp only [Option.some_bind, mkChain_lookup, hq', if_pos]
        obtain ⟨ds, hds⟩ := mkChain_isDir (rest.drop q'.length)
        exact ⟨ds, by rw [hds]⟩
    | some e =>
      cases rest with
      | nil => simp [makedirs, hg] at h
      | cons r rs =>
        cases hmk : makedirs e (r :: rs) with
        | error er => simp [makedirs, hg, hmk] at h
        | ok e' =>
          simp only [makedirs, hg, List.isEmpty, hmk] at h
          injection h with h
          subst h
          cases q with
          | nil => exact ⟨_, by rw [lookup_nil]⟩
          | cons m q' =>
            obtain ⟨hm, hq'⟩ := List.cons_prefix_cons.1 hq
            subst hm
            rw [lookup_dir_cons, childGet_childPut_self]
            simp only [Option.some_bind]
            exact makedirs_dirs (r :: rs) e e' hmk q' hq'

theorem makedirs_wf : ∀ (d : List String) (t t' : Entry),
    makedirs t d = .ok t' → wfb t = true → wfb t' = true
  | [], t, t', h, _ => by
    cases t <;> simp [makedirs] at h
  | n :: rest, .file c0, t', h, _ => by simp [makedirs] at h
  | n :: rest, .dir cs, t', h, hw => by
    cases hg : childGet n cs with
    | none =>
      simp only [makedirs, hg] at h
      injection h with h
      subst h
      exact wfb_childPut n _ cs hw (mkChain_wf rest)
    | some e =>
      cases rest with
      | nil => simp [makedirs, hg] at h
      | cons r rs =>
        cases hmk : makedirs e (r :: rs) with
        | error er => simp [makedirs, hg, hmk] at h
        | ok e' =>
          simp only [makedirs, hg, List.isEmpty, hmk] at h
          injection h with h
          subst h
          have hwe : wfb e = true := wfbL_childGet ((wfb_dir cs).1 hw).2 hg
          exact wfb_childPut n e' cs hw (makedirs_wf (r :: rs) e e' hmk hwe)

theorem lookup_file_cons (c : Content) (n : String) (q : List String) :
    lookup (.file c) (n :: q) = none := rfl

theorem lookup_split {t : Entry} {p : List String} (hp : p ≠ []) :
    lookup t p = (lookup t p.dropLast).bind (fun e => lookup e [p.getLast hp]) := by
  conv_lhs => rw [← List.dropLast_append_getLast hp]
  exact lookup_append t p.dropLast [p.getLast hp]

theorem lookup_parent {t : Entry} {p : List String} (hp : p ≠ []) {e : Entry}
    (h : lookup t p = some e) : ∃ ds, lookup t p.dropLast = some (.dir ds) := by
  rw [lookup_split hp] at h
  cases hl : lookup t p.dropLast with
  | none => rw [hl] at h; cases h
  | some e' =>
    rw [hl] at h
    cases e' with
    | file c =>
      simp only [Option.some_bind, lookup_file_cons] at h
      cases h
    | dir ds => exact ⟨ds, rfl⟩

theorem existsE_dropLast {t : Entry} {p : List String} (hp : p ≠ [])
    (h : existsE t p = true) : existsE t p.dropLast = true := by
  unfold existsE at h
  cases hl : lookup t p with
  | none => rw [hl] at h; cases h
  | some e =>
    obtain ⟨ds, hds⟩ := lookup_parent hp hl
    unfold existsE
    rw [hds]
    rfl

theorem prefix_of_prefix_dropLast {q p : List String} (h : q <+: p.dropLast) : q <+: p :=
  h.trans ( List.dropLast_prefix p)

theorem not_prefix_dropLast {p : List String} (hp : p ≠ []) : ¬ p <+: p.dropLast := by
  intro h
  have := h.length_le
  rw [List.length_dropLast] at this
  have hlen : 0 < p.length := List.length_pos.2 hp
  omega

theorem setFile_isSome_bound {t t' : Entry} {p : List String} {c : Content}
    (h : setFile t p c = some t') (q : List String)
    (hq : (lookup t' q).isSome = true) : (lookup t q).isSome = true ∨ q = p := by
  by_cases hqp : q = p
  · exact Or.inr hqp
  · by_cases h1 : p <+: q
    · rw [setFile_ext p t t' c q h h1 hqp] at hq
      cases hq
    · by_cases h2 : q <+: p
      · obtain ⟨⟨ds, hds⟩, -⟩ := setFile_short p t t' c q h h2 hqp
        rw [hds]
        exact Or.inl rfl
      · rw [setFile_incomp p t t' c q h h1 h2] at hq
        exact Or.inl hq

theorem setFile_file_pres {t t' : Entry} {p : List String} {c : Content}
    (h : setFile t p c = some t')
    (htd : ∀ ds, lookup t p ≠ some (.dir ds)) (q : List String) (hne : q ≠ p) {c' : Content}
    (hf : lookup t q = some (.file c')) : lookup t' q = some (.file c') := by
  by_cases h1 : p <+: q
  · exfalso
    obtain ⟨r, hr⟩ := h1
    cases r with
    | nil => exact hne (by rw [← hr, List.append_nil])
    | cons a as =>
      rw [← hr, lookup_append] at hf
      cases hl : lookup t p with
      | none => rw [hl] at hf; cases hf
      | some e0 =>
        rw [hl] at hf
        cases e0 with
        | file c0 => rw [Option.some_bind, lookup_file_cons] at hf; cases hf
        | dir ds => exact htd ds hl
  · by_cases h2 : q <+: p
    · exfalso
      obtain ⟨⟨ds, hds⟩, -⟩ := setFile_short p t t' c q h h2 hne
      rw [hds] at hf
      cases hf
    · rw [setFile_incomp p t t' c q h h1 h2]
      exact hf

theorem setFile_file_new {t t' : Entry} {p : List String} {c : Content}
    (h : setFile t p c = some t') (q : List String) {c' : Content}
    (hf : lookup t' q = some (.file c')) : lookup t q = some (.file c') ∨ q = p := by
  by_cases hqp : q = p
  · exact Or.inr hqp
  · by_cases h1 : p <+: q
    · rw [setFile_ext p t t' c q h h1 hqp] at hf
      cases hf
    · by_cases h2 : q <+: p
      · obtain ⟨-, ⟨ds', hds'⟩⟩ := setFile_short p t t' c q h h2 hqp
        rw [hds'] at hf
        cases hf
      · rw [setFile_incomp p t t' c q h h1 h2] at hf
        exact Or.inl hf

theorem copy2_src_file {src t : Entry} {p : List String} {c : Content}
    (hsrc : lookup src p = some (.file c)) (htd : ∀ ds, lookup t p ≠ some (.dir ds)) :
    copy2 src p t p = (match setFile t p c with
      | some t' => .ok t'
      | none => .error .notADirectory) := by
  simp only [copy2, hsrc]

/-- A successful iteration of the copy/skip loop: it either classifies the
file as identical (a replica file with equal digest is present; nothing is
mutated) or copies it (no such file; the source bytes end up at the
path), it never touches the `removed` counter, it preserves files at other
paths exactly, it creates entries only along the target path, and it
keeps the replica well-formed. -/
theorem copyStep_ok {src : Entry} {st : RunState} {p : List String} {c : Content}
    (hsrc : lookup src p = some (.file c)) (hp : p ≠ [])
    {st' : RunState} (h : copyStep src st p = (st', none)) :
    st'.removed = st.removed ∧
    ((∃ c', lookup st.replica p = some (.file c') ∧
        md5_hexdigest c' = md5_hexdigest c ∧
        st'.replica = st.replica ∧ st'.copied = st.copied ∧
        st'.identical = st.identical + 1 ∧ st'.log = st.log ++ [.identicalLine p]) ∨
     ((∀ c', lookup st.replica p = some (.file c') →
          md5_hexdigest c' ≠ md5_hexdigest c) ∧
        lookup st'.replica p = some (.file c) ∧ st'.copied = st.copied + 1 ∧
        st'.identical = st.identical ∧ st'.log = st.log ++ [.copiedLine p])) ∧
    (∀ q, (lookup st'.replica q).isSome = true →
        (lookup st.replica q).isSome = true ∨ q <+: p) ∧
    (∀ q c', q ≠ p → lookup st.replica q = some (.file c') →
        lookup st'.replica q = some (.file c')) ∧
    (∀ q c', lookup st'.replica q = some (.file c') →
        lookup st.replica q = some (.file c') ∨ q = p) ∧
    (wfb st.replica = true → wfb st'.replica = true) := by
  cases hd : existsE st.replica p.dropLast with
  | true =>
    cases hex : existsE st.replica p with
    | true =>
      cases hle : lookup st.replica p with
      | none => rw [existsE, hle] at hex; cases hex
      | some e =>
        cases e with
        | dir ds =>
          have hstep : (copyStep src st p).2 = some Err.isADirectory := by
            simp [copyStep, hd, hex, hsrc, hle, get_md5]
          rw [h] at hstep
          cases hstep
        | file c' =>
          by_cases hmd : md5_hexdigest c = md5_hexdigest c'
          · have hstep : copyStep src st p =
                ({ st with identical := st.identical + 1,
                           log := st.log ++ [.identicalLine p] }, none) := by
              simp [copyStep, hd, hex, hsrc, hle, get_md5, hmd]
            rw [hstep, Prod.mk.injEq] at h
            obtain ⟨h1, -⟩ := h
            subst h1
            refine ⟨rfl, Or.inl ⟨c', rfl, hmd.symm, rfl, rfl, rfl, rfl⟩, ?_, ?_, ?_, ?_⟩
            · intro q hq; exact Or.inl hq
            · intro q c'' _ hf; exact hf
            · intro q c'' hf; exact Or.inl hf
            · intro hw; exact hw
          · have htd : ∀ ds, lookup st.replica p ≠ some (.dir ds) := by
              intro ds hds; rw [hle] at hds; cases hds
            cases hs : setFile st.replica p c with
            | none =>
              have hstep : (copyStep src st p).2 = some Err.notADirectory := by
                simp [copyStep, hd, hex, hsrc, hle, get_md5, hmd, copy2_src_file hsrc htd, hs]
              rw [h] at hstep
              cases hstep
            | some t' =>
              have hstep : copyStep src st p =
                  ({ st with replica := t', copied := st.copied + 1,
                             log := st.log ++ [.copiedLine p] }, none) := by
                simp [copyStep, hd, hex, hsrc, hle, get_md5, hmd, copy2_src_file hsrc htd, hs]
              rw [hstep, Prod.mk.injEq] at h
              obtain ⟨h1, -⟩ := h
              subst h1
              refine ⟨rfl, Or.inr ⟨?_, setFile_self p _ t' c hs, rfl, rfl, rfl⟩, ?_, ?_, ?_, ?_⟩
              · intro c'' hc''
                injection hc'' with hc''
                injection hc'' with hc''
                subst hc''
                exact fun hh => hmd hh.symm
              · intro q hq
                rcases setFile_isSome_bound hs q hq with hh | hh
                · exact Or.inl hh
                · exact Or.inr (hh ▸ List.prefix_refl _)
              · intro q c'' hne hf
                exact setFile_file_pres hs htd q hne hf
              · intro q c'' hf
                exact setFile_file_new hs q hf
              · intro hw
                exact setFile_wf p _ t' c hs hw
    | false =>
      have htd : ∀ ds, lookup st.replica p ≠ some (.dir ds) := by
        intro ds hds
        rw [existsE, hds] at hex
        cases hex
      cases hs : setFile st.replica p c with
      | none =>
        have hstep : (copyStep src st p).2 = some Err.notADirectory := by
          simp [copyStep, hd, hex, copy2_src_file hsrc htd, hs]
        rw [h] at hstep
        cases hstep
      | some t' =>
        have hstep : copyStep src st p =
            ({ st with replica := t', copied := st.copied + 1,
                       log := st.log ++ [.copiedLine p] }, none) := by
          simp [copyStep, hd, hex, copy2_src_file hsrc htd, hs]
        rw [hstep, Prod.mk.injEq] at h
        obtain ⟨h1, -⟩ := h
        subst h1
        refine ⟨rfl, Or.inr ⟨?_, setFile_self p _ t' c hs, rfl, rfl, rfl⟩, ?_, ?_, ?_, ?_⟩
        · intro c'' hc''
          rw [existsE, hc''] at hex
          cases hex
        · intro q hq
          rcases setFile_isSome_bound hs q hq with hh | hh
          · exact Or.inl hh
          · exact Or.inr (hh ▸ List.prefix_refl _)
        · intro q c'' hne hf
          exact setFile_file_pres hs htd q hne hf
        · intro q c'' hf
          exact setFile_file_new hs q hf
        · intro hw
          exact setFile_wf p _ t' c hs hw
  | false =>
    cases hmk : makedirs st.replica p.dropLast with
    | error er =>
      have hstep : (copyStep src st p).2 = some er := by
        simp [copyStep, hd, hmk]
      rw [h] at hstep
      cases hstep
    | ok rep1 =>
      have hstp : existsE st.replica p = false := by
        cases hb : existsE st.replica p with
        | false => rfl
        | true =>
          rw [existsE_dropLast hp hb] at hd
          cases hd
      have hex1 : existsE rep1 p = false := by
        cases hb : existsE rep1 p with
        | false => rfl
        | true =>
          rcases (makedirs_isSome p.dropLast _ rep1 hmk p).1 hb with hh | hh
          · rw [existsE] at hstp
            rw [hstp] at hh
            cases hh
          · exact absurd hh (not_prefix_dropLast hp)
      have htd : ∀ ds, lookup rep1 p ≠ some (.dir ds) := by
        intro ds hds
        rw [existsE, hds] at hex1
        cases hex1
      cases hs : setFile rep1 p c with
      | none =>
        have hstep : (copyStep src st p).2 = some Err.notADirectory := by
          simp [copyStep, hd, hmk, hex1, copy2_src_file hsrc htd, hs]
        rw [h] at hstep
        cases hstep
      | some t' =>
        have hstep : copyStep src st p =
            ({ st with replica := t', copied := st.copied + 1,
                       log := st.log ++ [.copiedLine p] }, none) := by
          simp [copyStep, hd, hmk, hex1, copy2_src_file hsrc htd, hs]
        rw [hstep, Prod.mk.injEq] at h
        obtain ⟨h1, -⟩ := h
        subst h1
        refine ⟨rfl, Or.inr ⟨?_, setFile_self p _ t' c hs, rfl, rfl, rfl⟩, ?_, ?_, ?_, ?_⟩
        · intro c'' hc''
          rw [existsE, hc''] at hstp
          cases hstp
        · intro q hq
          rcases setFile_isSome_bound hs q hq with hh | hh
          · rcases (makedirs_isSome p.dropLast _ rep1 hmk q).1 hh with h2 | h2
            · exact Or.inl h2
            · exact Or.inr (prefix_of_prefix_dropLast h2)
          · exact Or.inr (hh ▸ List.prefix_refl _)
        · intro q c'' hne hf
          refine setFile_file_pres hs htd q hne ?_
          exact (makedirs_file p.dropLast _ rep1 hmk q c'').2 hf
        · intro q c'' hf
          rcases setFile_file_new hs q hf with hh | hh
          · exact Or.inl ((makedirs_file p.dropLast _ rep1 hmk q c'').1 hh)
          · exact Or.inr hh
        · intro hw
          exact setFile_wf p rep1 t' c hs (makedirs_wf p.dropLast _ rep1 hmk hw)

/-- The digest model is injective: equal digests mean equal bytes (the
spec relies on MD5 only for collision-avoiding change detection). -/
theorem md5_hexdigest_inj {c c' : Content}
    (h : md5_hexdigest c = md5_hexdigest c') : c = c' := h

/-- A copy/skip iteration on a path that already holds the identical file
is a pure skip: one `identical` tick, one log line, no mutation. -/
theorem copyStep_skip {src : Entry} {st : RunState} {p : List String} {c : Content}
    (hsrc : lookup src p = some (.file c)) (hp : p ≠ [])
    (hrep : lookup st.replica p = some (.file c)) :
    copyStep src st p =
      ({ st with identical := st.identical + 1,
                 log := st.log ++ [.identicalLine p] }, none) := by
  have hex : existsE st.replica p = true := by rw [existsE, hrep]; rfl
  have hd : existsE st.replica p.dropLast = true := existsE_dropLast hp hex
  simp [copyStep, hd, hex, hsrc, hrep, get_md5]

theorem copyStep_log (src : Entry) (st : RunState) (p : List String) :
    ∃ tail, (copyStep src st p).1.log = st.log ++ tail ∧
      ∀ l ∈ tail, isActionLine l = true := by
  simp only [copyStep]
  split
  · exact ⟨[], by simp⟩
  · split
    · split
      · exact ⟨[], by simp⟩
      · split
        · exact ⟨[], by simp⟩
        · split
          · exact ⟨[.identicalLine p], by simp [isActionLine]⟩
          · split
            · exact ⟨[.copiedLine p], by simp [isActionLine]⟩
            · exact ⟨[], by simp⟩
    · split
      · exact ⟨[.copiedLine p], by simp [isActionLine]⟩
      · exact ⟨[], by simp⟩

theorem copyPass_log (src : Entry) : ∀ (F : List (List String)) (st : RunState),
    ∃ tail, (copyPass src F st).1.log = st.log ++ tail ∧
      ∀ l ∈ tail, isActionLine l = true := by
  intro F
  induction F with
  | nil => exact fun st => ⟨[], by simp [copyPass]⟩
  | cons p ps ih =>
    intro st
    rcases hcs : copyStep src st p with ⟨st1, er⟩
    obtain ⟨t1, ht1, ht1a⟩ := copyStep_log src st p
    rw [hcs] at ht1
    cases er with
    | some e =>
      refine ⟨t1, ?_, ht1a⟩
      simp only [copyPass, hcs]
      exact ht1
    | none =>
      obtain ⟨t2, ht2, ht2a⟩ := ih st1
      refine ⟨t1 ++ t2, ?_, ?_⟩
      · simp only [copyPass, hcs]
        rw [ht2, ht1, List.append_assoc]
      · intro l hl
        rcases List.mem_append.1 hl with h | h
        · exact ht1a l h
        · exact ht2a l h

/-- Running the copy/skip loop over a list of source-file paths with no
error: counter book-keeping, completeness for the processed paths, exact
preservation of files elsewhere, creation bounded by the processed paths,
and preservation of well-formedness. -/
theorem copyPass_ok {src : Entry} : ∀ (F : List (List String)) (st st' : RunState),
    (∀ p ∈ F, p ≠ [] ∧ ∃ c, lookup src p = some (.file c)) →
    copyPass src F st = (st', none) →
    st'.removed = st.removed ∧
    st'.copied + st'.identical = st.copied + st.identical + F.length ∧
    (∀ p ∈ F, lookup st'.replica p = lookup src p) ∧
    (∀ q c', q ∉ F → lookup st.replica q = some (.file c') →
        lookup st'.replica q = some (.file c')) ∧
    (∀ q, (lookup st'.replica q).isSome = true →
        (lookup st.replica q).isSome = true ∨ ∃ p ∈ F, q <+: p) ∧
    (∀ q c', lookup st'.replica q = some (.file c') →
        lookup st.replica q = some (.file c') ∨ q ∈ F) ∧
    (wfb st.replica = true → wfb st'.replica = true) := by
  intro F
  induction F with
  | nil =>
    intro st st' _ h
    simp only [copyPass] at h
    rw [Prod.mk.injEq] at h
    obtain ⟨h1, -⟩ := h
    subst h1
    refine ⟨rfl, by simp, by simp, ?_, ?_, ?_, fun hw => hw⟩
    · intro q c' _ hf; exact hf
    · intro q hq; exact Or.inl hq
    · intro q c' hf; exact Or.inl hf
  | cons p ps ih =>
    intro st st' hF h
    obtain ⟨hp, c, hsrc⟩ := hF p (List.mem_cons_self _ _)
    rcases hcs : copyStep src st p with ⟨st1, er⟩
    cases er with
    | some e =>
      simp only [copyPass, hcs] at h
      rw [Prod.mk.injEq] at h
      cases h.2
    | none =>
      simp only [copyPass, hcs] at h
      have hstep := copyStep_ok hsrc hp hcs
      obtain ⟨hrem1, hbranch, hbound1, hpres1, hnew1, hwf1⟩ := hstep
      have hone : st1.copied + st1.identical = st.copied + st.identical + 1 ∧
          st1.log = st.log ++ [LogLine.identicalLine p] ∨
          st1.copied + st1.identical = st.copied + st.identical + 1 ∧
          st1.log = st.log ++ [LogLine.copiedLine p] := by
        rcases hbranch with ⟨c', -, -, -, hcop, hid, hlog⟩ | ⟨-, -, hcop, hid, hlog⟩
        · exact Or.inl ⟨by omega, hlog⟩
        · exact Or.inr ⟨by omega, hlog⟩
      have hfile1 : lookup st1.replica p = some (.file c) := by
        rcases hbranch with ⟨c', hlc, hmd, hrepl, -⟩ | ⟨-, hf, -⟩
        · rw [hrepl, hlc]
          have : c' = c := md5_hexdigest_inj hmd
          rw [this]
        · exact hf
      obtain ⟨hrem2, hcnt2, hcomp2, hpres2, hbound2, hnew2, hwf2⟩ :=
        ih st1 st' (fun q hq => hF q (List.mem_cons_of_mem _ hq)) h
      refine ⟨by rw [hrem2, hrem1], ?_, ?_, ?_, ?_, ?_, ?_⟩
      · rcases hone with ⟨h1, -⟩ | ⟨h1, -⟩ <;> (rw [hcnt2, h1]; simp; omega)
      · intro p0 hp0
        by_cases hin : p0 ∈ ps
        · exact hcomp2 p0 hin
        · have hp0p : p0 = p := by
            rcases List.mem_cons.1 hp0 with hh | hh
            · exact hh
            · exact absurd hh hin
          subst hp0p
          rw [hsrc]
          exact hpres2 p0 c hin hfile1
      · intro q c' hnin hf
        have hq1 : q ≠ p := fun hh => hnin (hh ▸ List.mem_cons_self _ _)
        have hq2 : q ∉ ps := fun hh => hnin (List.mem_cons_of_mem _ hh)
        exact hpres2 q c' hq2 (hpres1 q c' hq1 hf)
      · intro q hq
        rcases hbound2 q hq with hh | ⟨p0, hp0, hpre⟩
        · rcases hbound1 q hh with hh2 | hh2
          · exact Or.inl hh2
          · exact Or.inr ⟨p, List.mem_cons_self _ _, hh2⟩
        · exact Or.inr ⟨p0, List.mem_cons_of_mem _ hp0, hpre⟩
      · intro q c' hf
        rcases hnew2 q c' hf with hh | hh
        · rcases hnew1 q c' hh with hh2 | hh2
          · exact Or.inl hh2
          · exact Or.inr (hh2 ▸ List.mem_cons_self _ _)
        · exact Or.inr (List.mem_cons_of_mem _ hh)
      · intro hw
        exact hwf2 (hwf1 hw)

/-- When every path in the list already holds the identical file, the
copy/skip loop only counts and logs skips and leaves everything else of
the state unchanged. -/
theorem copyPass_skip {src : Entry} : ∀ (F : List (List String)) (st : RunState),
    (∀ p ∈ F, p ≠ [] ∧ ∃ c, lookup src p = some (.file c) ∧
        lookup st.replica p = some (.file c)) →
    copyPass src F st =
      ({ st with identical := st.identical + F.length,
                 log := st.log ++ F.map (fun p => .identicalLine p) }, none) := by
  intro F
  induction F with
  | nil =>
    intro st _
    simp [copyPass]
  | cons p ps ih =>
    intro st hF
    obtain ⟨hp, c, hsrc, hrep⟩ := hF p (List.mem_cons_self _ _)
    have hstep := copyStep_skip hsrc hp hrep
    simp only [copyPass, hstep]
    have hrest := ih
      ({ st with identical := st.identical + 1,
                 log := st.log ++ [LogLine.identicalLine p] })
      (fun q hq => hF q (List.mem_cons_of_mem _ hq))
    rw [hrest]
    simp [List.append_assoc]
    omega

/-! ## The source scan: membership -/

theorem mem_walkFilesHere {p : List String} {p0 : List String}
    {cs : List (String × Entry)} (h : p ∈ walkFilesHere p0 cs) :
    ∃ n c, p = p0 ++ [n] ∧ (n, Entry.file c) ∈ cs := by
  induction cs with
  | nil => cases h
  | cons x rest ih =>
    obtain ⟨n, e⟩ := x
    cases e with
    | file c =>
      simp only [walkFilesHere] at h
      rcases List.mem_cons.1 h with hh | hh
      · exact ⟨n, c, hh, List.mem_cons_self _ _⟩
      · obtain ⟨n', c', h1, h2⟩ := ih hh
        exact ⟨n', c', h1, List.mem_cons_of_mem _ h2⟩
    | dir d =>
      simp only [walkFilesHere] at h
      obtain ⟨n', c', h1, h2⟩ := ih h
      exact ⟨n', c', h1, List.mem_cons_of_mem _ h2⟩

theorem walkFilesHere_mem {n : String} {c : Content} {p0 : List String}
    {cs : List (String × Entry)} (h : (n, Entry.file c) ∈ cs) :
    p0 ++ [n] ∈ walkFilesHere p0 cs := by
  induction cs with
  | nil => cases h
  | cons x rest ih =>
    obtain ⟨m, e⟩ := x
    rcases List.mem_cons.1 h with hh | hh
    · injection hh with h1 h2
      subst h1; subst h2
      simp [walkFilesHere]
    · cases e with
      | file c' => simp only [walkFilesHere]; exact List.mem_cons_of_mem _ (ih hh)
      | dir d => simp only [walkFilesHere]; exact ih hh

theorem mem_walkFilesSub {p : List String} {p0 : List String}
    {cs : List (String × Entry)} (h : p ∈ walkFilesSub p0 cs) :
    ∃ n d, (n, Entry.dir d) ∈ cs ∧ p ∈ walkFiles (p0 ++ [n]) (.dir d) := by
  induction cs with
  | nil => cases h
  | cons x rest ih =>
    obtain ⟨n, e⟩ := x
    cases e with
    | file c =>
      simp only [walkFilesSub] at h
      obtain ⟨n', d', h1, h2⟩ := ih h
      exact ⟨n', d', List.mem_cons_of_mem _ h1, h2⟩
    | dir d =>
      simp only [walkFilesSub] at h
      rcases List.mem_append.1 h with hh | hh
      · exact ⟨n, d, List.mem_cons_self _ _, hh⟩
      · obtain ⟨n', d', h1, h2⟩ := ih hh
        exact ⟨n', d', List.mem_cons_of_mem _ h1, h2⟩

theorem walkFilesSub_mem {x : List String} {n : String} {d : List (String × Entry)}
    {p0 : List String} {cs : List (String × Entry)} (h : (n, Entry.dir d) ∈ cs)
    (hx : x ∈ walkFiles (p0 ++ [n]) (.dir d)) : x ∈ walkFilesSub p0 cs := by
  induction cs with
  | nil => cases h
  | cons y rest ih =>
    obtain ⟨m, e⟩ := y
    rcases List.mem_cons.1 h with hh | hh
    · injection hh with h1 h2
      subst h1; subst h2
      simp only [walkFilesSub]
      exact List.mem_append.2 (Or.inl hx)
    · cases e with
      | file c => simp only [walkFilesSub]; exact ih hh
      | dir d' =>
        simp only [walkFilesSub]
        exact List.mem_append.2 (Or.inr (ih hh))

/-- Every path the source scan collects names a regular file of the tree
(well-formed trees: the scan is consistent with path resolution). -/
theorem walkFiles_spec (e : Entry) (hw : wfb e = true) :
    ∀ p0 p, p ∈ walkFiles p0 e →
      ∃ q c, p = p0 ++ q ∧ q ≠ [] ∧ lookup e q = some (.file c) := by
  induction e using entryIndStrong with
  | hfile c => intro p0 p h; rw [walkFiles_file] at h; cases h
  | hdir cs hQ =>
    intro p0 p h
    rw [wfb_dir] at hw
    obtain ⟨hnd, hwL⟩ := hw
    rw [walkFiles_dir] at h
    rcases List.mem_append.1 h with hh | hh
    · obtain ⟨n, c, h1, h2⟩ := mem_walkFilesHere hh
      refine ⟨[n], c, h1, by simp, ?_⟩
      rw [lookup_dir_cons, childGet_of_mem_nodup hnd h2]
      rfl
    · obtain ⟨n, d, h1, h2⟩ := mem_walkFilesSub hh
      have hwd : wfb (Entry.dir d) = true := (wfbL_iff_all cs).1 hwL (n, .dir d) h1
      obtain ⟨q, c, hq1, hq2, hq3⟩ := hQ (n, .dir d) h1 hwd (p0 ++ [n]) p h2
      refine ⟨n :: q, c, by rw [hq1]; simp, by simp, ?_⟩
      rw [lookup_dir_cons, childGet_of_mem_nodup hnd h1]
      simpa using hq3

/-- Conversely, every regular file of the tree is collected by the scan. -/
theorem walkFiles_complete (e : Entry) :
    ∀ p0 q c, lookup e q = some (.file c) → q ≠ [] → (p0 ++ q) ∈ walkFiles p0 e := by
  induction e using entryIndStrong with
  | hfile c0 =>
    intro p0 q c h hq
    cases q with
    | nil => exact absurd rfl hq
    | cons n q' => rw [lookup_file_cons] at h; cases h
  | hdir cs hQ =>
    intro p0 q c h hq
    cases q with
    | nil => exact absurd rfl hq
    | cons n q' =>
      rw [lookup_dir_cons] at h
      cases hg : childGet n cs with
      | none => rw [hg] at h; cases h
      | some e0 =>
        rw [hg] at h
        simp only [Option.some_bind] at h
        have hmem := childGet_mem hg
        rw [walkFiles_dir]
        cases q' with
        | nil =>
          rw [lookup_nil] at h
          injection h with h
          subst h
          refine List.mem_append.2 (Or.inl ?_)
          simpa using walkFilesHere_mem hmem
        | cons m q'' =>
          cases e0 with
          | file c0 => rw [lookup_file_cons] at h; cases h
          | dir d =>
            have := hQ (n, .dir d) hmem (p0 ++ [n]) (m :: q'') c h (by simp)
            refine List.mem_append.2 (Or.inr ?_)
            have hx := walkFilesSub_mem hmem this
            rwa [← List.append_cons] at hx

/-- The source scan of a well-formed tree collects exactly the relative
paths of its regular files. -/
theorem source_files_spec {src : Entry} (hw : wfb src = true) (p : List String) :
    p ∈ source_files src ↔ (p ≠ [] ∧ ∃ c, lookup src p = some (.file c)) := by
  constructor
  · intro h
    obtain ⟨q, c, h1, h2, h3⟩ := walkFiles_spec src hw [] p h
    rw [List.nil_append] at h1
    subst h1
    exact ⟨h2, c, h3⟩
  · rintro ⟨hp, c, hc⟩
    have := walkFiles_complete src [] p c hc hp
    simpa using this

/-! ## Dissecting a whole run -/

theorem deletion_pass_delWalk (src replica : Entry) :
    deletion_pass src replica = delWalk src [] replica := rfl

/-- A run that completes without error is the deletion pass followed by a
successful copy pass, with the three summary lines appended at the end. -/
theorem sync_folders_ok {src replica : Entry}
    (h : (sync_folders src replica).2 = none) :
    ∃ st2, copyPass src (source_files src)
        { replica := (deletion_pass src replica).1, copied := 0,
          removed := (deletion_pass src replica).2.1, identical := 0,
          log := (deletion_pass src replica).2.2.1 } = (st2, none) ∧
      (sync_folders src replica).1 =
        { st2 with log := st2.log ++ [.filesCopied st2.copied,
            .filesRemoved st2.removed, .filesUnaltered st2.identical] } := by
  rcases hdp : deletion_pass src replica with ⟨rep1, k, lg, er⟩
  have her : er = none := by
    have := delWalk_err src replica []
    rw [← deletion_pass_delWalk, hdp] at this
    exact this
  subst her
  rcases hcp : copyPass src (source_files src)
      { replica := rep1, copied := 0, removed := k, identical := 0, log := lg } with ⟨st2, er2⟩
  cases er2 with
  | some e2 =>
    rw [sync_folders, hdp] at h
    simp only [hcp] at h
    cases h
  | none =>
    refine ⟨st2, rfl, ?_⟩
    simp only [sync_folders, hdp, hcp]

/-- C1 helper: everything the invariant needs about a finished run. -/
theorem sync_folders_invariant {src replica : Entry}
    (hwfs : wfb src = true) (hwfr : wfb replica = true)
    (h : (sync_folders src replica).2 = none) :
    (∀ p ∈ source_files src,
        lookup (sync_folders src replica).1.replica p = lookup src p) ∧
    (∀ q, q ≠ [] → (lookup (sync_folders src replica).1.replica q).isSome = true →
        (lookup src q).isSome = true) ∧
    wfb (sync_folders src replica).1.replica = true := by
  obtain ⟨st2, hcp, hst⟩ := sync_folders_ok h
  obtain ⟨hb, hcfile, hcount, hwf1⟩ := delWalk_master src replica hwfr []
  have hF : ∀ p ∈ source_files src, p ≠ [] ∧ ∃ c, lookup src p = some (.file c) :=
    fun p hp => (source_files_spec hwfs p).1 hp
  obtain ⟨-, -, hcomp, hpres, hbound, -, hwfp⟩ :=
    copyPass_ok (source_files src) _ st2 hF hcp
  have hrepl : (sync_folders src replica).1.replica = st2.replica := by rw [hst]
  refine ⟨?_, ?_, ?_⟩
  · intro p hp
    rw [hrepl]
    exact hcomp p hp
  · intro q hq hsome
    rw [hrepl] at hsome
    rcases hbound q hsome with hh | ⟨p, hpmem, hpre⟩
    · have hb' := hb q
      rw [← deletion_pass_delWalk] at hb'
      rw [hb'] at hh
      have hqe : q.isEmpty = false := by cases q with
        | nil => exact absurd rfl hq
        | cons a as => rfl
      rw [hqe] at hh
      simp only [List.nil_append, Bool.false_or, Bool.and_eq_true] at hh
      exact hh.2
    · obtain ⟨hpne, c, hpc⟩ := hF p hpmem
      obtain ⟨r, hr⟩ := hpre
      have hex : existsE src p = true := by rw [existsE, hpc]; rfl
      rw [← hr] at hex
      exact existsE_of_existsE_append hex
  · rw [hrepl]
    refine hwfp ?_
    rw [← deletion_pass_delWalk] at hwf1
    exact hwf1

/-! ## Claim theorems -/

/-- C1: for every run of the sync cycle (`sync_folders`) that completes
without error, afterwards every regular file present under the source
root has a byte-identical counterpart at the same relative path under the
replica root, and no path (file or directory) exists under the replica
root whose corresponding relative path is absent under the source root. -/
theorem claim_C1_run_invariant (src replica : Entry)
    (hwfs : wfb src = true) (hwfr : wfb replica = true)
    (h : (sync_folders src replica).2 = none) :
    (∀ p c, lookup src p = some (.file c) → p ≠ [] →
        lookup (sync_folders src replica).1.replica p = some (.file c)) ∧
    (∀ q, q ≠ [] → (lookup (sync_folders src replica).1.replica q).isSome = true →
        (lookup src q).isSome = true) := by
  obtain ⟨hcomp, horph, -⟩ := sync_folders_invariant hwfs hwfr h
  refine ⟨?_, horph⟩
  intro p c hpc hp
  have hmem : p ∈ source_files src := (source_files_spec hwfs p).2 ⟨hp, c, hpc⟩
  rw [hcomp p hmem, hpc]

theorem claim_C1_witness :
    (∀ p c, lookup (Entry.dir [("a", .file [1]), ("d", .dir [("b", .file [2])])]) p =
          some (.file c) → p ≠ [] →
        lookup (sync_folders (Entry.dir [("a", .file [1]), ("d", .dir [("b", .file [2])])])
          (Entry.dir [("x", .file [9])])).1.replica p = some (.file c)) ∧
    (∀ q, q ≠ [] →
        (lookup (sync_folders (Entry.dir [("a", .file [1]), ("d", .dir [("b", .file [2])])])
          (Entry.dir [("x", .file [9])])).1.replica q).isSome = true →
        (lookup (Entry.dir [("a", .file [1]), ("d", .dir [("b", .file [2])])]) q).isSome =
          true) :=
  claim_C1_run_invariant _ _ (by decide) (by decide) (by decide)

/-- C2 (amended): provided the FIRST run completes without error, running
the sync again with no intervening changes performs zero copies and zero
deletions: the second run completes without error, classifies every
source file identical, and leaves the replica tree untouched. -/
theorem claim_C2_amended (src replica : Entry)
    (hwfs : wfb src = true) (hwfr : wfb replica = true)
    (h1 : (sync_folders src replica).2 = none) :
    (sync_folders src (sync_folders src replica).1.replica).2 = none ∧
    (sync_folders src (sync_folders src replica).1.replica).1.copied = 0 ∧
    (sync_folders src (sync_folders src replica).1.replica).1.removed = 0 ∧
    (sync_folders src (sync_folders src replica).1.replica).1.identical =
      (source_files src).length ∧
    (sync_folders src (sync_folders src replica).1.replica).1.replica =
      (sync_folders src replica).1.replica := by
  obtain ⟨hcomp, horph, hwf2⟩ := sync_folders_invariant hwfs hwfr h1
  have hdel2 : deletion_pass src (sync_folders src replica).1.replica =
      ((sync_folders src replica).1.replica, 0, [], none) := by
    rw [deletion_pass_delWalk]
    refine delWalk_id src (sync_folders src replica).1.replica hwf2 [] ?_
    intro q hq
    rw [List.nil_append]
    cases q with
    | nil => rw [existsE, lookup_nil]; rfl
    | cons a as => exact horph _ (by simp) hq
  have hskip : copyPass src (source_files src)
      { replica := (sync_folders src replica).1.replica, copied := 0, removed := 0,
        identical := 0, log := [] } =
      ({ replica := (sync_folders src replica).1.replica, copied := 0, removed := 0,
         identical := 0 + (source_files src).length,
         log := [] ++ (source_files src).map (fun p => .identicalLine p) }, none) := by
    refine copyPass_skip (source_files src) _ ?_
    intro p hp
    obtain ⟨hpne, c, hpc⟩ := (source_files_spec hwfs p).1 hp
    refine ⟨hpne, c, hpc, ?_⟩
    show lookup (sync_folders src replica).1.replica p = some (.file c)
    rw [hcomp p hp, hpc]
  generalize hgen : (sync_folders src replica).1.replica = rep2 at hdel2 hskip ⊢
  refine ⟨?_, ?_, ?_, ?_, ?_⟩ <;> simp [sync_folders, hdel2, hskip]

theorem claim_C2_witness :
    (sync_folders (Entry.dir [("a", .file [3])])
        (sync_folders (Entry.dir [("a", .file [3])]) (Entry.dir [])).1.replica).2 = none ∧
    (sync_folders (Entry.dir [("a", .file [3])])
        (sync_folders (Entry.dir [("a", .file [3])]) (Entry.dir [])).1.replica).1.copied = 0 ∧
    (sync_folders (Entry.dir [("a", .file [3])])
        (sync_folders (Entry.dir [("a", .file [3])]) (Entry.dir [])).1.replica).1.removed = 0 ∧
    (sync_folders (Entry.dir [("a", .file [3])])
        (sync_folders (Entry.dir [("a", .file [3])]) (Entry.dir [])).1.replica).1.identical =
      (source_files (Entry.dir [("a", .file [3])])).length ∧
    (sync_folders (Entry.dir [("a", .file [3])])
        (sync_folders (Entry.dir [("a", .file [3])]) (Entry.dir [])).1.replica).1.replica =
      (sync_folders (Entry.dir [("a", .file [3])]) (Entry.dir [])).1.replica :=
  claim_C2_amended _ _ (by decide) (by decide) (by decide)

/-- C2 (counterexample): the claim as stated fails: there are trees for
which the second run does NOT classify every source file as identical —
the run aborts on the same error as the first run, leaving a source file
unclassified.  Source `{a/x, b}` against replica `{a : file}`: run 1
copies `b` and then dies copying `a/x` under the file `a`; run 2
classifies `b` identical and dies again, so only 1 of the 2 source files
is ever classified. -/
theorem claim_C2_counterexample :
    (source_files (Entry.dir [("a", .dir [("x", .file [1])]), ("b", .file [2])])).length
        = 2 ∧
    (sync_folders (Entry.dir [("a", .dir [("x", .file [1])]), ("b", .file [2])])
      (sync_folders (Entry.dir [("a", .dir [("x", .file [1])]), ("b", .file [2])])
        (Entry.dir [("a", .file [9])])).1.replica).1.identical = 1 ∧
    (sync_folders (Entry.dir [("a", .dir [("x", .file [1])]), ("b", .file [2])])
      (sync_folders (Entry.dir [("a", .dir [("x", .file [1])]), ("b", .file [2])])
        (Entry.dir [("a", .file [9])])).1.replica).2 ≠ none := by
  refine ⟨by decide, by decide, by decide⟩

/-- C3: for every run that completes without error, the finalized
counters satisfy `copied + identical = |source scan|` and `removed` is
the number of regular files of the pre-run replica whose relative path
does not exist under the source root (directory removals are not
counted). -/
theorem claim_C3_counters (src replica : Entry)
    (hwfs : wfb src = true) (hwfr : wfb replica = true)
    (h : (sync_folders src replica).2 = none) :
    (sync_folders src replica).1.copied + (sync_folders src replica).1.identical =
      (source_files src).length ∧
    (sync_folders src replica).1.removed =
      (walkFiles [] replica).countP (fun q => !existsE src q) := by
  obtain ⟨st2, hcp, hst⟩ := sync_folders_ok h
  obtain ⟨-, -, hcount, -⟩ := delWalk_master src replica hwfr []
  have hF : ∀ p ∈ source_files src, p ≠ [] ∧ ∃ c, lookup src p = some (.file c) :=
    fun p hp => (source_files_spec hwfs p).1 hp
  obtain ⟨hrem, hcnt, -, -, -, -, -⟩ := copyPass_ok (source_files src) _ st2 hF hcp
  constructor
  · rw [hst]
    show st2.copied + st2.identical = _
    rw [hcnt]
    simp
  · rw [hst]
    show st2.removed = _
    rw [hrem]
    show (deletion_pass src replica).2.1 = _
    rw [deletion_pass_delWalk]
    exact hcount

theorem claim_C3_witness :
    (sync_folders (Entry.dir [("a", .file [1]), ("c", .dir [("y", .file [5])])])
        (Entry.dir [("a", .file [1]), ("z", .file [7])])).1.copied +
      (sync_folders (Entry.dir [("a", .file [1]), ("c", .dir [("y", .file [5])])])
        (Entry.dir [("a", .file [1]), ("z", .file [7])])).1.identical =
      (source_files (Entry.dir [("a", .file [1]), ("c", .dir [("y", .file [5])])])).length ∧
    (sync_folders (Entry.dir [("a", .file [1]), ("c", .dir [("y", .file [5])])])
        (Entry.dir [("a", .file [1]), ("z", .file [7])])).1.removed =
      (walkFiles [] (Entry.dir [("a", .file [1]), ("z", .file [7])])).countP
        (fun q => !existsE (Entry.dir [("a", .file [1]), ("c", .dir [("y", .file [5])])]) q) :=
  claim_C3_counters _ _ (by decide) (by decide) (by decide)

/-- C5: the deletion pass walks the replica tree in post-order (the
recursion of `delWalk` descends into every subdirectory before the
directory's own triple is processed), and `os.rmdir` — modelled to fail
on a non-empty directory — never fails: every directory it removes is
empty at the moment of removal, so non-empty directories are never
force-removed. -/
theorem claim_C5_rmdir_only_empty (src replica : Entry) :
    (deletion_pass src replica).2.2.2 = none := by
  rw [deletion_pass_delWalk]
  exact delWalk_err src replica []

/-- C9: the deletion pass keeps a replica entry exactly when a filesystem
entry of ANY kind exists at the corresponding source path — the
`os.path.exists` test ignores the entry's kind, so a replica directory
shadowed by a source regular file (or a replica file shadowed by a source
directory) is never deleted. -/
theorem claim_C9_deletion_iff (src replica : Entry) (hwfr : wfb replica = true)
    (q : List String) (hq : q ≠ []) :
    ((lookup (deletion_pass src replica).1 q).isSome = true ↔
      ((lookup replica q).isSome = true ∧ (lookup src q).isSome = true)) := by
  obtain ⟨hb, -, -, -⟩ := delWalk_master src replica hwfr []
  rw [deletion_pass_delWalk, hb q]
  have hqe : q.isEmpty = false := by
    cases q with
    | nil => exact absurd rfl hq
    | cons a as => rfl
  rw [hqe]
  simp [existsE]

theorem claim_C9_witness :
    ((lookup (deletion_pass (Entry.dir [("a", .file [1])])
        (Entry.dir [("a", .dir [("k", .file [3])]), ("b", .file [2])])).1 ["a"]).isSome =
      true ↔
      ((lookup (Entry.dir [("a", .dir [("k", .file [3])]), ("b", .file [2])]) ["a"]).isSome
          = true ∧
        (lookup (Entry.dir [("a", .file [1])]) ["a"]).isSome = true)) :=
  claim_C9_deletion_iff _ _ (by decide) ["a"] (by decide)

/-- C10: a run creates directories under the replica root only as
ancestors of copied files: a path absent from the replica that is not a
prefix of any source-scan path is still absent after a successful run —
in particular a source directory with no regular files anywhere beneath
it is never created under the replica root. -/
theorem claim_C10_no_empty_dir_creation (src replica : Entry)
    (hwfs : wfb src = true) (hwfr : wfb replica = true)
    (h : (sync_folders src replica).2 = none)
    (q : List String) (hq : lookup replica q = none)
    (hnp : ∀ p ∈ source_files src, ¬ q <+: p) :
    lookup (sync_folders src replica).1.replica q = none := by
  obtain ⟨st2, hcp, hst⟩ := sync_folders_ok h
  obtain ⟨hb, -, -, -⟩ := delWalk_master src replica hwfr []
  have hF : ∀ p ∈ source_files src, p ≠ [] ∧ ∃ c, lookup src p = some (.file c) :=
    fun p hp => (source_files_spec hwfs p).1 hp
  obtain ⟨-, -, -, -, hbound, -, -⟩ := copyPass_ok (source_files src) _ st2 hF hcp
  rw [hst]
  show lookup st2.replica q = none
  cases hlq : lookup st2.replica q with
  | none => rfl
  | some e =>
    exfalso
    have hsome : (lookup st2.replica q).isSome = true := by rw [hlq]; rfl
    rcases hbound q hsome with hh | ⟨p, hpmem, hpre⟩
    · rw [deletion_pass_delWalk, hb q] at hh
      simp only [Bool.and_eq_true] at hh
      have h1 := hh.1
      rw [hq] at h1
      cases h1
    · exact hnp p hpmem hpre

theorem claim_C10_witness :
    lookup (sync_folders (Entry.dir [("f", .file [1]), ("empty", .dir [])])
      (Entry.dir [])).1.replica ["empty"] = none :=
  claim_C10_no_empty_dir_creation _ _ (by decide) (by decide) (by decide) ["empty"]
    (by rfl) (by decide)

/-- C4 (amended): a copy/skip iteration that completes without error
copies exactly when no replica file with an equal digest sits at the
path, and skips (no mutation, one `identical` tick) exactly when one
does.  (As literally stated the claim fails: when a DIRECTORY occupies
the replica path, hashing it raises and the iteration neither copies nor
skips — see the counterexample.) -/
theorem claim_C4_amended (src : Entry) (st : RunState) (p : List String) (c : Content)
    (hsrc : lookup src p = some (.file c)) (hp : p ≠ [])
    (h : (copyStep src st p).2 = none) :
    (((copyStep src st p).1.copied = st.copied + 1 ∧
        lookup (copyStep src st p).1.replica p = some (.file c)) ↔
      ¬ ∃ c', lookup st.replica p = some (.file c') ∧
          md5_hexdigest c' = md5_hexdigest c) ∧
    (((copyStep src st p).1.identical = st.identical + 1 ∧
        (copyStep src st p).1.replica = st.replica) ↔
      ∃ c', lookup st.replica p = some (.file c') ∧
          md5_hexdigest c' = md5_hexdigest c) := by
  rcases hcs : copyStep src st p with ⟨st', er⟩
  have her : er = none := by rw [hcs] at h; exact h
  subst her
  obtain ⟨-, hbranch, -, -, -, -⟩ := copyStep_ok hsrc hp hcs
  rcases hbranch with ⟨c', hlc, hmd, hrepl, hcop, hid, -⟩ | ⟨hno, hf, hcop, hid, -⟩
  · refine ⟨⟨?_, ?_⟩, ⟨fun _ => ⟨c', hlc, hmd⟩, fun _ => ⟨hid, hrepl⟩⟩⟩
    · rintro ⟨h1, -⟩
      rw [hcop] at h1
      omega
    · intro hno'
      exact absurd ⟨c', hlc, hmd⟩ hno'
  · refine ⟨⟨fun _ => ?_, fun _ => ⟨hcop, hf⟩⟩, ⟨?_, ?_⟩⟩
    · rintro ⟨c', hlc, hmd⟩
      exact hno c' hlc hmd
    · rintro ⟨h1, -⟩
      rw [hid] at h1
      omega
    · rintro ⟨c', hlc, hmd⟩
      exact absurd hmd (hno c' hlc)

theorem claim_C4_witness :
    (((copyStep (Entry.dir [("a", .file [1])])
          { replica := .dir [], copied := 0, removed := 0, identical := 0, log := [] }
          ["a"]).1.copied = 0 + 1 ∧
        lookup (copyStep (Entry.dir [("a", .file [1])])
          { replica := .dir [], copied := 0, removed := 0, identical := 0, log := [] }
          ["a"]).1.replica ["a"] = some (.file [1])) ↔
      ¬ ∃ c', lookup (Entry.dir []) ["a"] = some (.file c') ∧
          md5_hexdigest c' = md5_hexdigest [1]) ∧
    (((copyStep (Entry.dir [("a", .file [1])])
          { replica := .dir [], copied := 0, removed := 0, identical := 0, log := [] }
          ["a"]).1.identical = 0 + 1 ∧
        (copyStep (Entry.dir [("a", .file [1])])
          { replica := .dir [], copied := 0, removed := 0, identical := 0, log := [] }
          ["a"]).1.replica = Entry.dir []) ↔
      ∃ c', lookup (Entry.dir []) ["a"] = some (.file c') ∧
          md5_hexdigest c' = md5_hexdigest [1]) :=
  claim_C4_amended _ _ ["a"] [1] (by rfl) (by decide) (by rfl)

/-- C4 (counterexample): the claim as stated fails when a directory
occupies the replica path: `["a"]` is in the source scan and no FILE
exists at replica path `a`, so the claim demands a copy, but the pass
raises `IsADirectoryError` while hashing the directory and copies
nothing. -/
theorem claim_C4_counterexample :
    source_files (Entry.dir [("a", .file [1])]) = [["a"]] ∧
    readFile (Entry.dir [("a", .dir [])]) ["a"] = none ∧
    (sync_folders (Entry.dir [("a", .file [1])]) (Entry.dir [("a", .dir [])])).1.copied
        = 0 ∧
    readFile (sync_folders (Entry.dir [("a", .file [1])])
      (Entry.dir [("a", .dir [])])).1.replica ["a"] = none ∧
    (sync_folders (Entry.dir [("a", .file [1])]) (Entry.dir [("a", .dir [])])).2 =
      some Err.isADirectory := by
  refine ⟨by decide, by decide, by decide, by decide, by decide⟩

/-- C6 (amended): when a per-file operation fails with an I/O error the
exception propagates and the run aborts: the log of an aborted run holds
only per-action lines — the summary lines are never reached and no
failure line exists (the program has no failure message at all). -/
theorem claim_C6_amended (src replica : Entry) (er : Err)
    (h : (sync_folders src replica).2 = some er) :
    ∀ l ∈ (sync_folders src replica).1.log, isActionLine l = true := by
  rcases hdp : deletion_pass src replica with ⟨rep1, k, lg, er0⟩
  have her0 : er0 = none := by
    have := delWalk_err src replica []
    rw [← deletion_pass_delWalk, hdp] at this
    exact this
  subst her0
  have hlg : ∀ l ∈ lg, isActionLine l = true := by
    intro l hl
    have hmem : l ∈ (delWalk src [] replica).2.2.1 := by
      rw [← deletion_pass_delWalk, hdp]
      exact hl
    obtain ⟨q, hq⟩ := delWalk_log src replica [] l hmem
    rw [hq]
    rfl
  rcases hcp : copyPass src (source_files src)
      { replica := rep1, copied := 0, removed := k, identical := 0, log := lg } with
    ⟨st2, er2⟩
  cases er2 with
  | none =>
    simp only [sync_folders, hdp, hcp] at h
    cases h
  | some e2 =>
    intro l hl
    simp only [sync_folders, hdp, hcp] at hl
    obtain ⟨tail, htl, hta⟩ := copyPass_log src (source_files src)
      { replica := rep1, copied := 0, removed := k, identical := 0, log := lg }
    rw [hcp] at htl
    rw [htl] at hl
    rcases List.mem_append.1 hl with hh | hh
    · exact hlg l hh
    · exact hta l hh

theorem claim_C6_witness :
    ((sync_folders (Entry.dir [("a", .file [1]), ("b", .file [2])])
      (Entry.dir [("a", .dir [])])).1.log.all isActionLine) = true := by
  have h := claim_C6_amended (Entry.dir [("a", .file [1]), ("b", .file [2])])
    (Entry.dir [("a", .dir [])]) Err.isADirectory (by decide)
  exact List.all_eq_true.2 h

/-- C6 (counterexample): the claim as stated fails: hashing the directory
sitting at replica path `a` raises an I/O error, and the run neither logs
the failure (the log stays empty) nor continues — the remaining copy of
`b` is never applied. -/
theorem claim_C6_counterexample :
    (sync_folders (Entry.dir [("a", .file [1]), ("b", .file [2])])
      (Entry.dir [("a", .dir [])])).2 = some Err.isADirectory ∧
    readFile (sync_folders (Entry.dir [("a", .file [1]), ("b", .file [2])])
      (Entry.dir [("a", .dir [])])).1.replica ["b"] = none ∧
    (sync_folders (Entry.dir [("a", .file [1]), ("b", .file [2])])
      (Entry.dir [("a", .dir [])])).1.log = [] := by
  refine ⟨by decide, by decide, by decide⟩

/-- C7: lines 88–90 re-schedule the next invocation with
`scheduler.enter(backup_interval, 1, sync_folders, …)` as the very last
statement of the run, and `sched.enter` fires its event `delay` seconds
after the moment it is called: the next run is scheduled exactly
`interval` seconds after run completion — not after run start — so the
total cycle time is the run duration plus the interval. -/
theorem claim_C7_reschedule (tStart duration interval : Nat) :
    (sync_folders_reschedule (tStart + duration) interval).time =
      (tStart + duration) + interval ∧
    (sync_folders_reschedule (tStart + duration) interval).time - tStart =
      duration + interval := by
  refine ⟨rfl, ?_⟩
  simp only [sync_folders_reschedule, sched_enter]
  omega

theorem not_prefix_append_of_incomp {sourceRoot replicaRoot : List String}
    (h1 : ¬ sourceRoot <+: replicaRoot) (h2 : ¬ replicaRoot <+: sourceRoot)
    (x : List String) : ¬ sourceRoot <+: replicaRoot ++ x := by
  intro hh
  by_cases hlen : sourceRoot.length ≤ replicaRoot.length
  · exact h1 ( List.prefix_of_prefix_length_le hh ( List.prefix_append _ _) hlen)
  · exact h2 ( List.prefix_of_prefix_length_le ( List.prefix_append _ _) hh (by omega))

/-- C8: every filesystem path a run mutates — the deletion pass's
`os.remove`/`os.rmdir` targets, the directories `os.makedirs` may create
and the `shutil.copy2` destinations, each computed as the code computes
it from `replica_folder`, `os.path.relpath` and `os.path.join` — lies
under the replica root; hence, for roots neither of which contains the
other, no create/write/delete ever targets a path under the source
root. -/
theorem claim_C8_source_read_only (sourceRoot replicaRoot : List String)
    (src replica : Entry)
    (h1 : ¬ sourceRoot <+: replicaRoot) (h2 : ¬ replicaRoot <+: sourceRoot) :
    ∀ q ∈ mutationTargets sourceRoot replicaRoot src replica,
      replicaRoot <+: q ∧ ¬ sourceRoot <+: q := by
  intro q hq
  rcases List.mem_append.1 hq with hh | hh
  · obtain ⟨x, -, hxq⟩ := List.mem_map.1 hh
    rw [← hxq]
    exact ⟨List.prefix_append _ _, not_prefix_append_of_incomp h1 h2 x⟩
  · obtain ⟨p, -, hmem⟩ := List.mem_flatMap.1 hh
    have htgt : joinPath replicaRoot (relpath (joinPath sourceRoot p) sourceRoot) =
        replicaRoot ++ p := by
      simp [joinPath, relpath]
    rw [htgt] at hmem
    rcases List.mem_append.1 hmem with hh2 | hh2
    · obtain ⟨r, -, hrq⟩ := List.mem_map.1 hh2
      rw [← hrq]
      exact ⟨List.prefix_append _ _, not_prefix_append_of_incomp h1 h2 r⟩
    · rcases List.mem_cons.1 hh2 with hh3 | hh3
      · rw [hh3]
        exact ⟨List.prefix_append _ _, not_prefix_append_of_incomp h1 h2 p⟩
      · cases hh3

theorem claim_C8_witness :
    ((mutationTargets ["home", "src"] ["home", "rep"]
        (Entry.dir [("a", .file [1]), ("d", .dir [("b", .file [2])])])
        (Entry.dir [("z", .file [9]), ("w", .dir [])])).all
      (fun q => decide (["home", "rep"] <+: q) && !decide (["home", "src"] <+: q))) =
      true := by
  have h := claim_C8_source_read_only ["home", "src"] ["home", "rep"]
    (Entry.dir [("a", .file [1]), ("d", .dir [("b", .file [2])])])
    (Entry.dir [("z", .file [9]), ("w", .dir [])]) (by decide) (by decide)
  rw [List.all_eq_true]
  intro q hq
  obtain ⟨h1, h2⟩ := h q hq
  simp [h1, h2]

end FileSyncer
